import Mathlib

/-!
Verification development for the Codex-Switch backup tool (Go sources,
package `core` and `internal/util`).  The definitions below are a shallow
embedding of the program: the persisted index (`index.json`) becomes the
`IndexData` structure, the Go `map[string]string` for remarks becomes an
association list with Go-map semantics, the store's read-modify-write
transaction becomes `storeUpdateA`, and the orchestrator's `Scan`,
`persistBackup`, `prepareRemark` and `RestoreBackup` become pure state
transformers over a `World` (target file, backup directory, index file).
SHA-256 is implemented concretely so that the content hashing path
(`ComputeContentHash`, `ComputeFingerprint`) is executable.
-/

namespace CodexSwitch

/-! ### Association lists with Go-map semantics

Go maps have unique keys; `lookupA` is map indexing, `insertA` is map
assignment (replace if present, append otherwise), `eraseA` is `delete`.
-/

def lookupA {β : Type} : List (String × β) → String → Option β
  | [], _ => none
  | (k, v) :: rest, r => if k = r then some v else lookupA rest r

def insertA {β : Type} (m : List (String × β)) (k : String) (v : β) : List (String × β) :=
  if m.any (fun p => p.1 = k) then
    m.map (fun p => if p.1 = k then (k, v) else p)
  else
    m ++ [(k, v)]

def eraseA {β : Type} (m : List (String × β)) (k : String) : List (String × β) :=
  m.filter (fun p => p.1 ≠ k)

theorem lookupA_mem {β : Type} {m : List (String × β)} {k : String} {v : β}
    (h : lookupA m k = some v) : (k, v) ∈ m := by
  induction m with
  | nil => simp [lookupA] at h
  | cons p rest ih =>
    obtain ⟨k', v'⟩ := p
    by_cases hk : k' = k
    · subst hk
      simp [lookupA] at h
      subst h
      exact List.mem_cons_self _ _
    · simp only [lookupA, if_neg hk] at h
      exact List.mem_cons_of_mem _ (ih h)

theorem lookupA_eq_none {β : Type} {m : List (String × β)} {k : String} :
    lookupA m k = none ↔ ∀ p ∈ m, p.1 ≠ k := by
  induction m with
  | nil => simp [lookupA]
  | cons p rest ih =>
    obtain ⟨k', v'⟩ := p
    by_cases hk : k' = k
    · subst hk
      simp [lookupA]
    · simp [lookupA, hk, ih]

private theorem lookupA_replace_self {β : Type} {m : List (String × β)} {k : String} (v : β)
    (hmem : ∃ p ∈ m, p.1 = k) :
    lookupA (m.map (fun p => if p.1 = k then (k, v) else p)) k = some v := by
  induction m with
  | nil => simp at hmem
  | cons q rest ih =>
    obtain ⟨k₀, v₀⟩ := q
    simp only [List.map_cons]
    by_cases hk : k₀ = k
    · subst hk
      have hq : (if ((k₀, v₀) : String × β).1 = k₀ then ((k₀, v) : String × β) else (k₀, v₀)) =
          (k₀, v) := by simp
      rw [hq]
      simp [lookupA]
    · have hq : (if ((k₀, v₀) : String × β).1 = k then ((k, v) : String × β) else (k₀, v₀)) =
          (k₀, v₀) := by simp [hk]
      rw [hq]
      simp only [lookupA, if_neg hk]
      apply ih
      rcases hmem with ⟨p, hp, hpk⟩
      rcases List.mem_cons.mp hp with hp | hp
      · subst hp; exact absurd hpk hk
      · exact ⟨p, hp, hpk⟩

private theorem lookupA_replace_ne {β : Type} {m : List (String × β)} {k k' : String} (v : β)
    (h : k' ≠ k) :
    lookupA (m.map (fun p => if p.1 = k then (k, v) else p)) k' = lookupA m k' := by
  induction m with
  | nil => simp [lookupA]
  | cons q rest ih =>
    obtain ⟨k₀, v₀⟩ := q
    simp only [List.map_cons]
    by_cases hk : k₀ = k
    · subst hk
      have hq : (if ((k₀, v₀) : String × β).1 = k₀ then ((k₀, v) : String × β) else (k₀, v₀)) =
          (k₀, v) := by simp
      rw [hq]
      simp only [lookupA, if_neg (fun hh : k₀ = k' => h hh.symm)]
      exact ih
    · have hq : (if ((k₀, v₀) : String × β).1 = k then ((k, v) : String × β) else (k₀, v₀)) =
          (k₀, v₀) := by simp [hk]
      rw [hq]
      simp only [lookupA]
      by_cases hq2 : k₀ = k'
      · simp [hq2]
      · simp only [if_neg hq2]
        exact ih

private theorem lookupA_append_single_self {β : Type} {m : List (String × β)} {k : String}
    (v : β) (hnone : lookupA m k = none) : lookupA (m ++ [(k, v)]) k = some v := by
  induction m with
  | nil => simp [lookupA]
  | cons q rest ih =>
    obtain ⟨k₀, v₀⟩ := q
    simp only [lookupA] at hnone
    by_cases hq : k₀ = k
    · simp [hq] at hnone
    · simp only [List.cons_append, lookupA, if_neg hq] at hnone ⊢
      exact ih hnone

private theorem lookupA_append_single_ne {β : Type} {m : List (String × β)} {k k' : String}
    (v : β) (h : k' ≠ k) : lookupA (m ++ [(k, v)]) k' = lookupA m k' := by
  induction m with
  | nil => simp [lookupA, if_neg (fun hh : k = k' => h hh.symm)]
  | cons q rest ih =>
    obtain ⟨k₀, v₀⟩ := q
    simp only [List.cons_append, lookupA]
    by_cases hq : k₀ = k'
    · simp [hq]
    · simp only [if_neg hq]
      exact ih

theorem lookupA_insertA_self {β : Type} (m : List (String × β)) (k : String) (v : β) :
    lookupA (insertA m k v) k = some v := by
  unfold insertA
  by_cases hmem : m.any (fun p => p.1 = k)
  · rw [if_pos hmem]
    simp only [List.any_eq_true, decide_eq_true_eq] at hmem
    exact lookupA_replace_self v hmem
  · rw [if_neg hmem]
    simp only [List.any_eq_true, decide_eq_true_eq, not_exists, not_and] at hmem
    exact lookupA_append_single_self v (lookupA_eq_none.mpr hmem)

theorem lookupA_insertA_ne {β : Type} (m : List (String × β)) (k k' : String) (v : β)
    (h : k' ≠ k) : lookupA (insertA m k v) k' = lookupA m k' := by
  unfold insertA
  by_cases hmem : m.any (fun p => p.1 = k)
  · rw [if_pos hmem]
    exact lookupA_replace_ne v h
  · rw [if_neg hmem]
    exact lookupA_append_single_ne v h

theorem lookupA_eraseA {β : Type} (m : List (String × β)) (k k' : String) :
    lookupA (eraseA m k) k' = if k' = k then none else lookupA m k' := by
  induction m with
  | nil => simp [eraseA, lookupA]
  | cons q rest ih =>
    obtain ⟨k₀, v₀⟩ := q
    simp only [eraseA, List.filter_cons] at ih ⊢
    by_cases hk : k₀ = k
    · rw [if_neg (by simpa using hk)]
      by_cases hkk : k' = k
      · rw [if_pos hkk]
        rw [if_pos hkk] at ih
        exact ih
      · rw [if_neg hkk]
        rw [if_neg hkk] at ih
        rw [ih]
        subst hk
        have : ¬k₀ = k' := fun hh => hkk (hh ▸ rfl)
        simp [lookupA, if_neg this]
    · rw [if_pos (by simpa using hk)]
      simp only [lookupA]
      by_cases hq : k₀ = k'
      · subst hq
        simp [fun hh : k₀ = k => hk hh]
      · simp only [if_neg hq]
        exact ih

theorem keysNodup_insertA {β : Type} {m : List (String × β)} (k : String) (v : β)
    (h : (m.map (fun p => p.1)).Nodup) : ((insertA m k v).map (fun p => p.1)).Nodup := by
  unfold insertA
  by_cases hmem : m.any (fun p => p.1 = k)
  · rw [if_pos hmem]
    have hmapeq : (m.map (fun p => if p.1 = k then (k, v) else p)).map (fun p => p.1) =
        m.map (fun p => p.1) := by
      rw [List.map_map]
      apply List.map_congr_left
      intro p _
      by_cases hp : p.1 = k
      · simp [hp]
      · simp [hp]
    rw [hmapeq]
    exact h
  · rw [if_neg hmem]
    simp only [List.any_eq_true, decide_eq_true_eq, not_exists, not_and] at hmem
    rw [List.map_append]
    simp only [List.map_cons, List.map_nil]
    rw [List.nodup_append]
    refine ⟨h, List.nodup_singleton _, ?_⟩
    intro a ha hb
    simp only [List.mem_singleton] at hb
    subst hb
    obtain ⟨p, hp, hpa⟩ := List.mem_map.mp ha
    exact hmem p hp hpa

theorem keysNodup_eraseA {β : Type} {m : List (String × β)} (k : String)
    (h : (m.map (fun p => p.1)).Nodup) : ((eraseA m k).map (fun p => p.1)).Nodup := by
  have hsub : (eraseA m k).Sublist m := List.filter_sublist m
  exact (hsub.map (fun p => p.1)).nodup h

/-! ### Decimal rendering of naturals

`natStr` models Go's `fmt.Sprintf("%d", n)` (and `strconv` style decimal
output) for natural counters.  Fuel-based so kernel reduction works; fuel
`n + 1` always suffices since `n < 10 ^ (n + 1)`.
-/

def digitChar (d : Nat) : Char :=
  (String.toList "0123456789").getD d '0'

def natDigits : Nat → Nat → List Nat
  | 0, _ => []
  | fuel + 1, n => if n < 10 then [n] else natDigits fuel (n / 10) ++ [n % 10]

def natStr (n : Nat) : String :=
  String.mk ((natDigits (n + 1) n).map digitChar)

def decValDigits (l : List Nat) : Nat :=
  l.foldl (fun a d => 10 * a + d) 0

private theorem foldl_dec_append (l : List Nat) (d a : Nat) :
    (l ++ [d]).foldl (fun a d => 10 * a + d) a = 10 * (l.foldl (fun a d => 10 * a + d) a) + d := by
  rw [List.foldl_append]
  rfl

private theorem natDigits_dec (fuel n : Nat) (h : n < 10 ^ fuel) :
    decValDigits (natDigits fuel n) = n := by
  induction fuel generalizing n with
  | zero => simp [natDigits, decValDigits] at h ⊢; omega
  | succ fuel ih =>
    by_cases hn : n < 10
    · simp [natDigits, hn, decValDigits]
    · simp only [natDigits, if_neg hn]
      unfold decValDigits
      rw [foldl_dec_append]
      have hdiv : n / 10 < 10 ^ fuel := by
        rw [Nat.div_lt_iff_lt_mul (by norm_num)]
        calc n < 10 ^ (fuel + 1) := h
        _ = 10 ^ fuel * 10 := by rw [pow_succ]
      rw [show (natDigits fuel (n / 10)).foldl (fun a d => 10 * a + d) 0 =
        decValDigits (natDigits fuel (n / 10)) from rfl]
      rw [ih _ hdiv]
      omega

private theorem natDigits_lt_ten (fuel n : Nat) :
    ∀ d ∈ natDigits fuel n, d < 10 := by
  induction fuel generalizing n with
  | zero => simp [natDigits]
  | succ fuel ih =>
    by_cases hn : n < 10
    · simp [natDigits, hn]
    · simp only [natDigits, if_neg hn]
      intro d hd
      rcases List.mem_append.mp hd with hd | hd
      · exact ih _ d hd
      · simp only [List.mem_singleton] at hd
        subst hd
        exact Nat.mod_lt _ (by norm_num)

private theorem digitChar_toNat (d : Nat) (h : d < 10) :
    (digitChar d).toNat - 48 = d := by
  interval_cases d <;> decide

private theorem decVal_map_digitChar (l : List Nat) (h : ∀ d ∈ l, d < 10) :
    (l.map digitChar).foldl (fun a c => 10 * a + (c.toNat - 48)) 0 = decValDigits l := by
  unfold decValDigits
  rw [List.foldl_map]
  induction l using List.reverseRecOn with
  | nil => rfl
  | append_singleton l d ih =>
    rw [List.foldl_append, List.foldl_append]
    have hd : d < 10 := h d (by simp)
    have hl : ∀ d ∈ l, d < 10 := fun d hd => h d (by simp [hd])
    simp only [List.foldl_cons, List.foldl_nil]
    rw [ih hl, digitChar_toNat d hd]

theorem natStr_inj {n m : Nat} (h : natStr n = natStr m) : n = m := by
  have hn : n < 10 ^ (n + 1) := lt_trans (Nat.lt_pow_self (by norm_num) n)
    (Nat.pow_lt_pow_right (by norm_num) (Nat.lt_succ_self n))
  have hm : m < 10 ^ (m + 1) := lt_trans (Nat.lt_pow_self (by norm_num) m)
    (Nat.pow_lt_pow_right (by norm_num) (Nat.lt_succ_self m))
  have hlist : (natDigits (n + 1) n).map digitChar = (natDigits (m + 1) m).map digitChar := by
    have := congrArg String.data h
    simpa [natStr] using this
  have := congrArg (fun l => l.foldl (fun a c => 10 * a + (c.toNat - 48)) 0) hlist
  simp only at this
  rw [decVal_map_digitChar _ (natDigits_lt_ten _ _),
      decVal_map_digitChar _ (natDigits_lt_ten _ _)] at this
  rw [natDigits_dec _ _ hn, natDigits_dec _ _ hm] at this
  exact this

theorem natStr_ne_empty (n : Nat) : natStr n ≠ "" := by
  intro h
  have hd : (natDigits (n + 1) n).map digitChar = [] := by
    have := congrArg String.data h
    simpa [natStr] using this
  have hne : natDigits (n + 1) n ≠ [] := by
    by_cases hn : n < 10 <;> simp [natDigits, hn]
  exact hne (by simpa using hd)

/-! ### SHA-256 (the `crypto/sha256` calls in `hash.go`)

Bytes are naturals below 256, 32-bit words are naturals below `m32`.
This is the standard FIPS 180-4 algorithm that Go's `sha256.Sum256` /
`sha256.New` compute; `hexEncode` is `hex.EncodeToString`.
-/

def m32 : Nat := 4294967296

def rotr32 (x n : Nat) : Nat :=
  ((x >>> n) ||| (x <<< (32 - n))) % m32

def shaCh (e f g : Nat) : Nat := (e &&& f) ^^^ ((e ^^^ (m32 - 1)) &&& g)

def shaMaj (a b c : Nat) : Nat := (a &&& b) ^^^ (a &&& c) ^^^ (b &&& c)

def bigSigma0 (x : Nat) : Nat := rotr32 x 2 ^^^ rotr32 x 13 ^^^ rotr32 x 22

def bigSigma1 (x : Nat) : Nat := rotr32 x 6 ^^^ rotr32 x 11 ^^^ rotr32 x 25

def smallSigma0 (x : Nat) : Nat := rotr32 x 7 ^^^ rotr32 x 18 ^^^ (x >>> 3)

def smallSigma1 (x : Nat) : Nat := rotr32 x 17 ^^^ rotr32 x 19 ^^^ (x >>> 10)

def shaK : List Nat :=
  [1116352408, 1899447441, 3049323471, 3921009573, 961987163, 1508970993,
   2453635748, 2870763221, 3624381080, 310598401, 607225278, 1426881987,
   1925078388, 2162078206, 2614888103, 3248222580, 3835390401, 4022224774,
   264347078, 604807628, 770255983, 1249150122, 1555081692, 1996064986,
   2554220882, 2821834349, 2952996808, 3210313671, 3336571891, 3584528711,
   113926993, 338241895, 666307205, 773529912, 1294757372, 1396182291,
   1695183700, 1986661051, 2177026350, 2456956037, 2730485921, 2820302411,
   3259730800, 3345764771, 3516065817, 3600352804, 4094571909, 275423344,
   430227734, 506948616, 659060556, 883997877, 958139571, 1322822218,
   1537002063, 1747873779, 1955562222, 2024104815, 2227730452, 2361852424,
   2428436474, 2756734187, 3204031479, 3329325298]

structure ShaState where
  a : Nat
  b : Nat
  c : Nat
  d : Nat
  e : Nat
  f : Nat
  g : Nat
  h : Nat
deriving Repr, DecidableEq

def shaInit : ShaState :=
  ⟨1779033703, 3144134277, 1013904242, 2773480762,
   1359893119, 2600822924, 528734635, 1541459225⟩

def shaRound (s : ShaState) (kw : Nat) : ShaState :=
  let t1 := (s.h + bigSigma1 s.e + shaCh s.e s.f s.g + kw) % m32
  let t2 := (bigSigma0 s.a + shaMaj s.a s.b s.c) % m32
  ⟨(t1 + t2) % m32, s.a, s.b, s.c, (s.d + t1) % m32, s.e, s.f, s.g⟩

def shaAdd (x y : ShaState) : ShaState :=
  ⟨(x.a + y.a) % m32, (x.b + y.b) % m32, (x.c + y.c) % m32, (x.d + y.d) % m32,
   (x.e + y.e) % m32, (x.f + y.f) % m32, (x.g + y.g) % m32, (x.h + y.h) % m32⟩

def toWordsBE : List Nat → List Nat
  | b0 :: b1 :: b2 :: b3 :: rest =>
      (((b0 <<< 24) + (b1 <<< 16) + (b2 <<< 8) + b3) % m32) :: toWordsBE rest
  | _ => []

def msgSchedule (w16 : List Nat) : List Nat :=
  (List.range 48).foldl
    (fun w _ =>
      let n := w.length
      w ++ [(smallSigma1 (w.getD (n - 2) 0) + w.getD (n - 7) 0 +
             smallSigma0 (w.getD (n - 15) 0) + w.getD (n - 16) 0) % m32])
    w16

def shaCompress (hst : ShaState) (block16 : List Nat) : ShaState :=
  let w := msgSchedule block16
  let kw := List.zipWith (fun k wt => k + wt) shaK w
  shaAdd (kw.foldl shaRound hst) hst

def lenBytesBE (n : Nat) : List Nat :=
  [(n >>> 56) % 256, (n >>> 48) % 256, (n >>> 40) % 256, (n >>> 32) % 256,
   (n >>> 24) % 256, (n >>> 16) % 256, (n >>> 8) % 256, n % 256]

def padMsg (msg : List Nat) : List Nat :=
  let len := msg.length
  let zeros := (64 + 55 - len % 64) % 64
  msg ++ [128] ++ List.replicate zeros 0 ++ lenBytesBE (8 * len)

def blocksGo : Nat → List Nat → List (List Nat)
  | 0, _ => []
  | _, [] => []
  | fuel + 1, x :: rest => (x :: rest).take 64 :: blocksGo fuel ((x :: rest).drop 64)

def blocks64 (l : List Nat) : List (List Nat) :=
  blocksGo l.length l

def wordBytesBE (w : Nat) : List Nat :=
  [(w >>> 24) % 256, (w >>> 16) % 256, (w >>> 8) % 256, w % 256]

def sha256 (msg : List Nat) : List Nat :=
  let final := (blocks64 (padMsg msg)).foldl (fun h blk => shaCompress h (toWordsBE blk)) shaInit
  [final.a, final.b, final.c, final.d, final.e, final.f, final.g, final.h].flatMap wordBytesBE

def hexAlphabet : List Char := String.toList "0123456789abcdef"

def hexDigit (d : Nat) : Char := hexAlphabet.getD d '0'

def byteHexChars (b : Nat) : List Char := [hexDigit (b / 16), hexDigit (b % 16)]

def hexEncode (bs : List Nat) : String :=
  String.mk (bs.flatMap byteHexChars)

def sha256hex (msg : List Nat) : String :=
  hexEncode (sha256 msg)

/-- Known-answer check: SHA-256 of the empty message (FIPS 180-4 vector). -/
theorem sha256hex_empty_vector :
    sha256hex [] = "e3b0c44298fc1c149afbf4c8996fb92427ae41e4649b934ca495991b7852b855" := by
  decide

/-- Known-answer check: SHA-256 of "abc" (FIPS 180-4 vector). -/
theorem sha256hex_abc_vector :
    sha256hex [97, 98, 99] =
      "ba7816bf8f01cfea414140de5dae2223b00361a396177a9cb410ff61f20015ad" := by
  decide

/-! ### Data model (`store.go`): `BackupItem`, `IndexData`, errors

`createdAt` and `lastModified` are Go `time.Time` values modelled as
nanoseconds since the epoch; `0` is the zero time (`IsZero`).
-/

structure BackupItem where
  id : String
  filename : String
  contentHash : String
  fileFingerprint : String
  size : Nat
  createdAt : Nat
  remark : String
  isAuto : Bool
  sourcePath : String
  lastModified : Nat
deriving Repr, DecidableEq

/-- The zero `BackupItem` (Go's zero value for the struct). -/
def zeroItem : BackupItem :=
  ⟨"", "", "", "", 0, 0, "", false, "", 0⟩

structure IndexData where
  targetPath : String
  hashAlgo : String
  latestFingerprint : String
  items : List BackupItem
  remarks : List (String × String)
deriving Repr, DecidableEq

/-- Domain and storage errors surfaced by the core (`ErrRemarkExists`,
`ErrBackupNotFound`, the "empty remark" validation error of
`prepareRemark`, and wrapped I/O read failures). -/
inductive Err where
  | remarkExists
  | backupNotFound
  | emptyRemark
  | ioError
deriving Repr, DecidableEq

/-- `IndexData.ensureDefaults` from `store.go`.  In the embedding the
`Items`/`Remarks` nil-map checks are vacuous (lists are never nil), so
only `HashAlgo` and `TargetPath` defaulting remains. -/
def ensureDefaults (target : String) (idx : IndexData) : IndexData :=
  { idx with
    hashAlgo := if idx.hashAlgo = "" then "sha256" else idx.hashAlgo,
    targetPath := if idx.targetPath = "" then target else idx.targetPath }

/-- The empty index produced by unmarshalling a missing `index.json`. -/
def emptyIndex : IndexData :=
  ⟨"", "", "", [], []⟩

/-- `Store.loadIndexUnlocked`: read `index.json` if it exists (the disk is
`Option IndexData`: `none` = missing file), apply `ensureDefaults`. -/
def loadIndex (disk : Option IndexData) (target : String) : IndexData :=
  ensureDefaults target (disk.getD emptyIndex)

theorem ensureDefaults_idem (target : String) (idx : IndexData) :
    ensureDefaults target (ensureDefaults target idx) = ensureDefaults target idx := by
  unfold ensureDefaults
  by_cases h1 : idx.hashAlgo = ""
  · by_cases h2 : idx.targetPath = "" <;> simp [h1, h2]
  · by_cases h2 : idx.targetPath = "" <;> simp [h1, h2]

/-! ### The store transaction (`Store.update` + `util.AtomicWriteJSON`)

`storeUpdateA` is the read-modify-write transaction: load the persisted
state, run the caller's mutator, normalize defaults, and atomically
replace the index file.  A mutator error aborts with no write.  The Go
mutators perform all their error checks before mutating, so they embed as
`IndexData → Except Err (α × IndexData)` returning the auxiliary value
and the new state.
-/

def storeUpdateA {α : Type} (disk : Option IndexData) (target : String)
    (mutator : IndexData → Except Err (α × IndexData)) :
    Except Err (α × IndexData) × Option IndexData :=
  match mutator (loadIndex disk target) with
  | .error e => (.error e, disk)
  | .ok (a, idx') =>
      let fin := ensureDefaults target idx'
      (.ok (a, fin), some fin)

/-- Mutator of `Store.AddBackup`: reject a remark owned by a different id,
record the remark, append the item, advance the latest fingerprint. -/
def addBackupMut (item : BackupItem) (latestFingerprint : String) (idx : IndexData) :
    Except Err (Unit × IndexData) :=
  if item.remark ≠ "" then
    match lookupA idx.remarks item.remark with
    | some existing =>
        if existing ≠ item.id then .error .remarkExists
        else .ok ((), { idx with
          remarks := insertA idx.remarks item.remark item.id,
          items := idx.items ++ [item],
          latestFingerprint := latestFingerprint })
    | none => .ok ((), { idx with
        remarks := insertA idx.remarks item.remark item.id,
        items := idx.items ++ [item],
        latestFingerprint := latestFingerprint })
  else .ok ((), { idx with
    items := idx.items ++ [item],
    latestFingerprint := latestFingerprint })

def storeAddBackup (disk : Option IndexData) (target : String) (item : BackupItem)
    (latestFingerprint : String) : Except Err (Unit × IndexData) × Option IndexData :=
  storeUpdateA disk target (addBackupMut item latestFingerprint)

/-- Mutator of `Store.UpdateLatestFingerprint`. -/
def setFingerprintMut (fingerprint : String) (idx : IndexData) :
    Except Err (Unit × IndexData) :=
  .ok ((), { idx with latestFingerprint := fingerprint })

def storeUpdateLatestFingerprint (disk : Option IndexData) (target : String)
    (fingerprint : String) : Except Err (Unit × IndexData) × Option IndexData :=
  storeUpdateA disk target (setFingerprintMut fingerprint)

/-- Replace the remark of the first item with the given id (`store.go`
mutates the slice element found by the first-match loop in place). -/
def setRemarkFirst : List BackupItem → String → String → List BackupItem
  | [], _, _ => []
  | it :: rest, id, r =>
      if it.id = id then { it with remark := r } :: rest
      else it :: setRemarkFirst rest id r

/-- Mutator of `Store.UpdateRemark`: find the item, tolerate a no-op
rename, reject a remark owned by a different id, migrate the remark map. -/
def updateRemarkMut (id newRemark : String) (idx : IndexData) :
    Except Err (BackupItem × IndexData) :=
  match idx.items.find? (fun it => it.id = id) with
  | none => .error .backupNotFound
  | some item =>
      if item.remark = newRemark then .ok (item, idx)
      else
        match (if newRemark ≠ "" then lookupA idx.remarks newRemark else none) with
        | some existing =>
            if existing ≠ id then .error .remarkExists
            else updateRemarkApply id newRemark idx item
        | none => updateRemarkApply id newRemark idx item
where
  updateRemarkApply (id newRemark : String) (idx : IndexData) (item : BackupItem) :
      Except Err (BackupItem × IndexData) :=
    let afterErase := if item.remark ≠ "" then eraseA idx.remarks item.remark else idx.remarks
    let afterInsert := if newRemark ≠ "" then insertA afterErase newRemark id else afterErase
    .ok ({ item with remark := newRemark },
      { idx with items := setRemarkFirst idx.items id newRemark, remarks := afterInsert })

def storeUpdateRemark (disk : Option IndexData) (target : String) (id newRemark : String) :
    Except Err (BackupItem × IndexData) × Option IndexData :=
  storeUpdateA disk target (updateRemarkMut id newRemark)

/-- Go's `latest` selection inside `Store.DeleteBackup`'s loop:
`latest.CreatedAt.IsZero() || item.CreatedAt.After(latest.CreatedAt)`. -/
def maxStep (latest item : BackupItem) : BackupItem :=
  if latest.createdAt = 0 ∨ item.createdAt > latest.createdAt then item else latest

/-- One step of `Store.DeleteBackup`'s filtering loop: accumulate kept
items, the removed item, the found flag, and the running newest kept item
(Go's `latest`, selected with `IsZero`/`After` on creation time). -/
def deleteStep (id : String)
    (acc : List BackupItem × Bool × BackupItem × BackupItem) (item : BackupItem) :
    List BackupItem × Bool × BackupItem × BackupItem :=
  let (kept, found, removed, latest) := acc
  if item.id = id then (kept, true, item, latest)
  else (kept ++ [item], found, removed, maxStep latest item)

/-- Mutator of `Store.DeleteBackup`. -/
def deleteBackupMut (id : String) (idx : IndexData) :
    Except Err (BackupItem × IndexData) :=
  let (kept, found, removed, latest) :=
    idx.items.foldl (deleteStep id) ([], false, zeroItem, zeroItem)
  if found then
    .ok (removed,
      { idx with
        items := kept,
        remarks := if removed.remark ≠ "" then eraseA idx.remarks removed.remark else idx.remarks,
        latestFingerprint := if latest.id ≠ "" then latest.fileFingerprint else "" })
  else .error .backupNotFound

def storeDeleteBackup (disk : Option IndexData) (target : String) (id : String) :
    Except Err (BackupItem × IndexData) × Option IndexData :=
  storeUpdateA disk target (deleteBackupMut id)

/-! ### Fingerprint engine and content hasher (`hash.go`) -/

/-- Raw stat metadata of the target file (`FileStat`): size, modification
time in nanoseconds, inode and device as exposed by the platform. -/
structure FileStat where
  size : Nat
  modTimeNanos : Nat
  inode : Nat
  dev : Nat
deriving Repr, DecidableEq

/-- ASCII string to bytes (the fingerprint seed is all-ASCII). -/
def strBytes (s : String) : List Nat :=
  s.data.map Char.toNat

/-- `ComputeFingerprint`: SHA-256 over the seed
`"{size}|{modTimeNano}|{inode}|{dev}"`, keeping the first 8 digest bytes,
hex-encoded (16 hex characters). -/
def computeFingerprint (st : FileStat) : String :=
  let seed := natStr st.size ++ "|" ++ natStr st.modTimeNanos ++ "|" ++
    natStr st.inode ++ "|" ++ natStr st.dev
  hexEncode ((sha256 (strBytes seed)).take 8)

/-- `ComputeContentHash`: one read pass through the file feeds both the
hash (`io.TeeReader`) and the returned byte slice, so the digest is the
SHA-256 of exactly the bytes returned. -/
def computeContentHash (fileBytes : List Nat) : String × List Nat :=
  (sha256hex fileBytes, fileBytes)

/-- `ShortHash`: truncate a content hash to 12 characters. -/
def shortHash (contentHash : String) : String :=
  if contentHash.length ≤ 12 then contentHash
  else String.mk (contentHash.data.take 12)

/-! ### Filename allocator (`filename.go`) -/

/-- `BuildBackupFilename`: `{timestamp}_{shortDigest}.json`.  The rendered
timestamp is an input (the code formats `time.Now()`). -/
def buildBackupFilename (formatted : String) (contentHash : String) : String :=
  formatted ++ "_" ++ shortHash contentHash ++ ".json"

/-- `strings.TrimSuffix(base, ".json")`. -/
def trimSuffixJson (base : String) : String :=
  let l := base.data
  if 5 ≤ l.length ∧ l.drop (l.length - 5) = String.toList ".json" then
    String.mk (l.take (l.length - 5))
  else base

/-- Candidate `k` tried by `EnsureUniqueFilename`: the base name itself,
then `{prefix}-{k}.json`. -/
def fnCand (base : String) : Nat → String
  | 0 => base
  | k + 1 => trimSuffixJson base ++ "-" ++ natStr (k + 1) ++ ".json"

/-- The collision loop of `EnsureUniqueFilename`.  The Go loop is
unbounded; `fs.length + 1` attempts always reach a free name because the
candidates are pairwise distinct, so the fuel never runs out. -/
def findFreeGo (fs : List (String × List Nat)) (base : String) : Nat → Nat → String
  | 0, k => fnCand base k
  | fuel + 1, k =>
      if lookupA fs (fnCand base k) = none then fnCand base k
      else findFreeGo fs base fuel (k + 1)

/-- `EnsureUniqueFilename` over the backup-directory contents `fs`
(filename ↦ stored bytes). -/
def ensureUniqueFilename (fs : List (String × List Nat)) (base : String) : String :=
  findFreeGo fs base (fs.length + 1) 0

/-! ### The orchestrator (`service.go`)

`World` is the state the service manipulates: the target file's content
(`none` = the file does not exist), the backup directory (filename ↦
bytes), and the persisted index file.  Stat metadata of the target and
the formatted wall-clock timestamp are environment inputs passed to each
operation, as are the freshly generated UUID and the clock.
-/

structure World where
  target : Option (List Nat)
  backups : List (String × List Nat)
  disk : Option IndexData
deriving Repr, DecidableEq

/-- Wall-clock input for one scan: `time.Now()` both as nanoseconds and
as its `"20060102-150405"` rendering. -/
structure Clock where
  nanos : Nat
  formatted : String
deriving Repr, DecidableEq

structure ScanResult where
  created : Bool
  item : Option BackupItem
  reason : String
deriving Repr, DecidableEq

def reasonMissing : String := "目标文件不存在"

def reasonUnchanged : String := "文件未变更"

def reasonDuplicate : String := "内容已存在备份"

/-- `findByContentHash`: first item with the given content hash. -/
def findByContentHash (items : List BackupItem) (hash : String) : Option BackupItem :=
  items.find? (fun it => it.contentHash = hash)

/-- Synthesized-remark collision loop of `prepareRemark` (fuel-based; the
Go loop is unbounded but candidates are pairwise distinct so
`remarks.length + 1` attempts always find a free one). -/
def synthGo (remarks : List (String × String)) (base : String) : Nat → Nat → String
  | 0, counter => base ++ "-" ++ natStr counter
  | fuel + 1, counter =>
      let candidate := base ++ "-" ++ natStr counter
      if lookupA remarks candidate = none then candidate
      else synthGo remarks base fuel (counter + 1)

/-- `strings.TrimSpace`: drop leading and trailing whitespace. -/
def goTrimSpace (s : String) : String :=
  String.mk (((s.data.dropWhile Char.isWhitespace).reverse.dropWhile
    Char.isWhitespace).reverse)

/-- `Service.prepareRemark`: validate a caller-supplied remark (trimmed,
non-empty, not already taken) or synthesize `manual-`/`auto-` +
timestamp, suffixing on collision. -/
def prepareRemark (idx : IndexData) (isAuto : Bool) (req : Option String) (clock : Clock) :
    Except Err String :=
  match req with
  | some reqStr =>
      let r := goTrimSpace reqStr
      if r = "" then .error .emptyRemark
      else
        match lookupA idx.remarks r with
        | some _ => .error .remarkExists
        | none => .ok r
  | none =>
      let base := (if isAuto then "auto-" else "manual-") ++ clock.formatted
      if lookupA idx.remarks base = none then .ok base
      else .ok (synthGo idx.remarks base (idx.remarks.length + 1) 1)

/-- Candidate remark tried at attempt `k` of `persistBackup`'s retry
loop: the resolved remark itself, then `{base}-{k}`. -/
def remCand (base : String) : Nat → String
  | 0 => base
  | k + 1 => base ++ "-" ++ natStr (k + 1)

/-- The commit-retry loop of `Service.persistBackup`.  On
`ErrRemarkExists` with an automatic trigger it renames to
`{base}-{counter}` and retries; any other error (or a manual trigger)
propagates.  The Go loop is unbounded — `fuel` makes the embedding total,
and `persistBackup` passes enough fuel that exhaustion is unreachable. -/
def persistLoop (target fp : String) (isAuto : Bool) (base : String) :
    Nat → Option IndexData → BackupItem → Nat →
    Except Err (Unit × IndexData) × Option IndexData
  | 0, disk, _, _ => (.error .remarkExists, disk)
  | fuel + 1, disk, item, counter =>
      match storeAddBackup disk target item fp with
      | (.ok r, disk') => (.ok r, disk')
      | (.error e, disk') =>
          if e = .remarkExists ∧ isAuto = true then
            persistLoop target fp isAuto base fuel disk'
              { item with remark := base ++ "-" ++ natStr counter } (counter + 1)
          else (.error e, disk')

/-- `Service.persistBackup` (the loop entered with the item's resolved
remark and counter 1). -/
def persistBackup (disk : Option IndexData) (target : String) (item : BackupItem)
    (fp : String) (isAuto : Bool) : Except Err (Unit × IndexData) × Option IndexData :=
  persistLoop target fp isAuto item.remark
    ((loadIndex disk target).remarks.length + 2) disk item 1

/-- `Service.Scan`.  Environment inputs: the stat result for the target
(valid when the target exists), the clock, and the UUID for a new entry.
Returns the scan outcome and the updated world. -/
def scan (isAuto : Bool) (remark : Option String) (st : FileStat) (clock : Clock)
    (newId : String) (tp : String) (w : World) :
    Except Err ScanResult × World :=
  let idx := loadIndex w.disk tp
  match w.target with
  | none => (.ok ⟨false, none, reasonMissing⟩, w)
  | some fileBytes =>
      let fingerprint := computeFingerprint st
      if idx.latestFingerprint = fingerprint then
        (.ok ⟨false, none, reasonUnchanged⟩, w)
      else
        let (contentHash, data) := computeContentHash fileBytes
        match findByContentHash idx.items contentHash with
        | some _ =>
            let (_, disk') := storeUpdateLatestFingerprint w.disk tp fingerprint
            (.ok ⟨false, none, reasonDuplicate⟩, { w with disk := disk' })
        | none =>
            match prepareRemark idx isAuto remark clock with
            | .error e => (.error e, w)
            | .ok finalRemark =>
                let filename := ensureUniqueFilename w.backups
                  (buildBackupFilename clock.formatted contentHash)
                let item : BackupItem :=
                  { id := newId, filename := filename, contentHash := contentHash,
                    fileFingerprint := fingerprint, size := st.size,
                    createdAt := clock.nanos, remark := finalRemark, isAuto := isAuto,
                    sourcePath := tp, lastModified := st.modTimeNanos }
                let w₁ := { w with backups := insertA w.backups filename data }
                match persistBackup w₁.disk tp item fingerprint isAuto with
                | (.ok _, disk') => (.ok ⟨true, some item, ""⟩, { w₁ with disk := disk' })
                | (.error e, disk') =>
                    (.error e, { w₁ with backups := eraseA w₁.backups filename, disk := disk' })

/-- `Service.CreateBackup`: a manual scan. -/
def createBackup (remark : Option String) (st : FileStat) (clock : Clock)
    (newId : String) (tp : String) (w : World) : Except Err ScanResult × World :=
  scan false remark st clock newId tp w

/-- `Service.RestoreBackup`: find the entry, read its backup file,
atomically overwrite the target, then refresh the latest fingerprint
best-effort (`refresh = none` models a failed re-stat: skipped, still a
success). -/
def restoreBackup (w : World) (tp : String) (id : String) (refresh : Option FileStat) :
    Except Err Unit × World :=
  let idx := loadIndex w.disk tp
  match idx.items.find? (fun it => it.id = id) with
  | none => (.error .backupNotFound, w)
  | some item =>
      match lookupA w.backups item.filename with
      | none => (.error .ioError, w)
      | some data =>
          let w₁ := { w with target := some data }
          match refresh with
          | some st =>
              let (_, disk') := storeUpdateLatestFingerprint w₁.disk tp (computeFingerprint st)
              (.ok (), { w₁ with disk := disk' })
          | none => (.ok (), w₁)

/-! ### The label-uniqueness invariant

`IndexInv` states the data-model invariant of §3 of the design: entry ids
are unique, no two entries share a non-empty label, the remark map has
unique keys, every mapping in it is owned by an entry with that non-empty
label and id, and every non-empty entry label is present in the map
pointing at its owner.  All conjuncts quantify over list members only, so
the invariant is decidable and checkable on concrete states.
-/

def IndexInv (idx : IndexData) : Prop :=
  (idx.items.map (fun it => it.id)).Nodup ∧
  (∀ it1 ∈ idx.items, ∀ it2 ∈ idx.items,
    it1.remark ≠ "" → it1.remark = it2.remark → it1.id = it2.id) ∧
  (idx.remarks.map (fun p => p.1)).Nodup ∧
  (∀ p ∈ idx.remarks, p.1 ≠ "" ∧ ∃ it ∈ idx.items, it.remark = p.1 ∧ it.id = p.2) ∧
  (∀ it ∈ idx.items, it.remark ≠ "" → lookupA idx.remarks it.remark = some it.id)

instance (idx : IndexData) : Decidable (IndexInv idx) := by
  unfold IndexInv
  infer_instance

/-- The index-store operations of the claim: add-entry, update-label,
delete-entry (each is a `Store` helper built on `Store.update`). -/
inductive StoreOp where
  | add (item : BackupItem) (fingerprint : String)
  | setRemark (id newRemark : String)
  | del (id : String)

/-- Apply one store operation to the persisted state. -/
def applyStoreOp (op : StoreOp) (disk : Option IndexData) (target : String) :
    Except Err Unit × Option IndexData :=
  match op with
  | .add item fp =>
      let (r, disk') := storeAddBackup disk target item fp
      (r.map (fun _ => ()), disk')
  | .setRemark id newRemark =>
      let (r, disk') := storeUpdateRemark disk target id newRemark
      (r.map (fun _ => ()), disk')
  | .del id =>
      let (r, disk') := storeDeleteBackup disk target id
      (r.map (fun _ => ()), disk')

/-- Freshness of the generated UUID: `Service.Scan` only ever calls
add-entry with `uuid.New()`, which is not the id of any existing entry. -/
def opFresh (op : StoreOp) (idx : IndexData) : Prop :=
  match op with
  | .add item _ => ∀ it ∈ idx.items, it.id ≠ item.id
  | .setRemark _ _ => True
  | .del _ => True

/-! ### Support lemmas about `loadIndex` and `ensureDefaults` -/

theorem ensureDefaults_loadIndex (disk : Option IndexData) (target : String) :
    ensureDefaults target (loadIndex disk target) = loadIndex disk target := by
  unfold loadIndex
  exact ensureDefaults_idem target _

theorem ensureDefaults_set_latest (target fp : String) (idx : IndexData) :
    ensureDefaults target { idx with latestFingerprint := fp } =
      { ensureDefaults target idx with latestFingerprint := fp } := rfl

/-- The fingerprint-only store update, computed: it always succeeds and
replaces the persisted state by the loaded state with the new latest
fingerprint. -/
theorem storeUpdateLatestFingerprint_eq (disk : Option IndexData) (target fp : String) :
    storeUpdateLatestFingerprint disk target fp =
      (.ok ((), { loadIndex disk target with latestFingerprint := fp }),
        some { loadIndex disk target with latestFingerprint := fp }) := by
  unfold storeUpdateLatestFingerprint storeUpdateA setFingerprintMut
  simp only
  rw [ensureDefaults_set_latest, ensureDefaults_loadIndex]

/-! ### Claims -/

/-- C6: for every mutation through the index store's update path, a
mutator error (label-taken, entry-not-found, …) aborts the transaction:
no write happens, the persisted `IndexData` is exactly the pre-call disk
state, and the error is propagated to the caller. -/
theorem c6_mutator_error_aborts {α : Type} (disk : Option IndexData) (target : String)
    (mutator : IndexData → Except Err (α × IndexData)) (e : Err)
    (herr : mutator (loadIndex disk target) = .error e) :
    storeUpdateA disk target mutator = (.error e, disk) := by
  unfold storeUpdateA
  rw [herr]

/-- C6 witness: renaming a nonexistent entry id on an empty index fails
with `backupNotFound` and leaves the (absent) index file untouched. -/
theorem c6_witness :
    updateRemarkMut "missing-id" "newname" (loadIndex none "/tmp/auth.json") =
        .error .backupNotFound ∧
      storeUpdateA none "/tmp/auth.json" (updateRemarkMut "missing-id" "newname") =
        (.error .backupNotFound, none) :=
  ⟨rfl, c6_mutator_error_aborts none "/tmp/auth.json" _ .backupNotFound rfl⟩

/-- C4: a scan whose target file does not exist reports `not-created`
with the "target missing" reason, and a scan whose fast signature equals
the recorded latest fingerprint reports `not-created` with the
"unchanged" reason; in both cases the world — target file, backup
directory, and persisted index (entries, label index, latest signature) —
is returned completely unchanged. -/
theorem c4_terminal_cases_no_change (isAuto : Bool) (remark : Option String)
    (st : FileStat) (clock : Clock) (newId tp : String) (w : World) :
    (w.target = none →
      scan isAuto remark st clock newId tp w = (.ok ⟨false, none, reasonMissing⟩, w)) ∧
    (∀ fileBytes, w.target = some fileBytes →
      (loadIndex w.disk tp).latestFingerprint = computeFingerprint st →
      scan isAuto remark st clock newId tp w = (.ok ⟨false, none, reasonUnchanged⟩, w)) := by
  constructor
  · intro h
    unfold scan
    rw [h]
  · intro fileBytes h hfp
    unfold scan
    rw [h]
    dsimp only
    rw [if_pos hfp]

/-- C4 witness: concrete missing-target and unchanged scans. -/
theorem c4_witness :
    (scan true none ⟨3, 1000, 5, 7⟩ ⟨2000, "20240101-120000"⟩ "id1" "/t/auth.json"
        ⟨none, [], none⟩ =
      (.ok ⟨false, none, reasonMissing⟩, ⟨none, [], none⟩)) ∧
    (scan true none ⟨3, 1000, 5, 7⟩ ⟨2000, "20240101-120000"⟩ "id1" "/t/auth.json"
        ⟨some [97, 98, 99], [],
          some ⟨"/t/auth.json", "sha256", computeFingerprint ⟨3, 1000, 5, 7⟩, [], []⟩⟩ =
      (.ok ⟨false, none, reasonUnchanged⟩,
        ⟨some [97, 98, 99], [],
          some ⟨"/t/auth.json", "sha256", computeFingerprint ⟨3, 1000, 5, 7⟩, [], []⟩⟩)) :=
  ⟨(c4_terminal_cases_no_change true none ⟨3, 1000, 5, 7⟩ ⟨2000, "20240101-120000"⟩
      "id1" "/t/auth.json" ⟨none, [], none⟩).1 rfl,
   (c4_terminal_cases_no_change true none ⟨3, 1000, 5, 7⟩ ⟨2000, "20240101-120000"⟩
      "id1" "/t/auth.json" _).2 [97, 98, 99] rfl (by rfl)⟩

/-- C1: when the target exists, its fast signature differs from the
recorded latest fingerprint, and some entry in the snapshot already has
the same content digest, the scan returns `not-created` with the
"duplicate content" reason, advances only `latestSignature` to the newly
observed fast signature, and adds no entry (items, remarks and the backup
directory are untouched). -/
theorem c1_duplicate_content (isAuto : Bool) (remark : Option String) (st : FileStat)
    (clock : Clock) (newId tp : String) (w : World) (fileBytes : List Nat)
    (htarget : w.target = some fileBytes)
    (hchanged : (loadIndex w.disk tp).latestFingerprint ≠ computeFingerprint st)
    (hdup : ∃ it ∈ (loadIndex w.disk tp).items, it.contentHash = sha256hex fileBytes) :
    scan isAuto remark st clock newId tp w =
      (.ok ⟨false, none, reasonDuplicate⟩,
        { w with disk := some { loadIndex w.disk tp with
            latestFingerprint := computeFingerprint st } }) := by
  obtain ⟨it, hit, hhash⟩ := hdup
  have hfind : (findByContentHash (loadIndex w.disk tp).items (sha256hex fileBytes)).isSome := by
    unfold findByContentHash
    rw [List.find?_isSome]
    exact ⟨it, hit, by simpa using hhash⟩
  obtain ⟨it', hit'⟩ := Option.isSome_iff_exists.mp hfind
  unfold scan
  rw [htarget]
  simp only [if_neg hchanged, computeContentHash]
  rw [hit']
  simp only [storeUpdateLatestFingerprint_eq]

/-- C1 witness: a scan of `"abc"` with a touched timestamp (changed
signature, identical content) on an index already holding an entry with
that digest. -/
theorem c1_witness :
    ((⟨some [97, 98, 99],
        [("f1.json", [97, 98, 99])],
        some ⟨"/t/auth.json", "sha256", "oldfp",
          [⟨"e1", "f1.json", sha256hex [97, 98, 99], "oldfp", 3, 100, "first", false,
            "/t/auth.json", 90⟩], [("first", "e1")]⟩⟩ : World).target =
      some [97, 98, 99]) ∧
    scan false none ⟨3, 1000, 5, 7⟩ ⟨2000, "20240101-120000"⟩ "id2" "/t/auth.json"
        ⟨some [97, 98, 99],
          [("f1.json", [97, 98, 99])],
          some ⟨"/t/auth.json", "sha256", "oldfp",
            [⟨"e1", "f1.json", sha256hex [97, 98, 99], "oldfp", 3, 100, "first", false,
              "/t/auth.json", 90⟩], [("first", "e1")]⟩⟩ =
      (.ok ⟨false, none, reasonDuplicate⟩,
        { (⟨some [97, 98, 99],
            [("f1.json", [97, 98, 99])],
            some ⟨"/t/auth.json", "sha256", "oldfp",
              [⟨"e1", "f1.json", sha256hex [97, 98, 99], "oldfp", 3, 100, "first", false,
                "/t/auth.json", 90⟩], [("first", "e1")]⟩⟩ : World) with
          disk := some { loadIndex (some ⟨"/t/auth.json", "sha256", "oldfp",
              [⟨"e1", "f1.json", sha256hex [97, 98, 99], "oldfp", 3, 100, "first", false,
                "/t/auth.json", 90⟩], [("first", "e1")]⟩) "/t/auth.json" with
            latestFingerprint := computeFingerprint ⟨3, 1000, 5, 7⟩ } }) :=
  ⟨rfl,
   c1_duplicate_content false none ⟨3, 1000, 5, 7⟩ ⟨2000, "20240101-120000"⟩ "id2"
     "/t/auth.json" _ [97, 98, 99] rfl (by decide)
     ⟨⟨"e1", "f1.json", sha256hex [97, 98, 99], "oldfp", 3, 100, "first", false,
        "/t/auth.json", 90⟩, by simp [loadIndex, ensureDefaults, emptyIndex], rfl⟩⟩

/-! ### C9 support: shape of the SHA-256 hex digest -/

theorem sha256_length (msg : List Nat) : (sha256 msg).length = 32 := by
  unfold sha256
  simp [wordBytesBE]

theorem hexDigit_mem_alphabet (d : Nat) : hexDigit d ∈ hexAlphabet := by
  unfold hexDigit List.getD
  cases h : hexAlphabet.get? d with
  | none => simp [h]; decide
  | some c =>
      have := List.get?_mem h
      simp [h, this]

theorem hexEncode_length (bs : List Nat) : (hexEncode bs).length = 2 * bs.length := by
  unfold hexEncode
  induction bs with
  | nil => rfl
  | cons b rest ih =>
      simp only [List.flatMap_cons, byteHexChars] at ih ⊢
      simp only [String.length] at ih ⊢
      simp at ih ⊢
      omega

theorem hexEncode_chars (bs : List Nat) :
    ∀ c ∈ (hexEncode bs).data, c ∈ hexAlphabet := by
  unfold hexEncode
  intro c hc
  simp only [String.data] at hc
  obtain ⟨b, _, hcb⟩ := List.mem_flatMap.mp hc
  simp only [byteHexChars, List.mem_cons, List.mem_singleton, List.not_mem_nil,
    or_false] at hcb
  rcases hcb with h | h
  · exact h ▸ hexDigit_mem_alphabet _
  · exact h ▸ hexDigit_mem_alphabet _

/-- C9: the content hasher returns a digest and the raw bytes of its
single read pass, and the digest is the hex encoding of the SHA-256 (the
algorithm recorded in the index's `digestAlgorithm` field) of exactly the
returned bytes: 64 characters, all lowercase hex. -/
theorem c9_content_hash_exact (fileBytes : List Nat) (target : String) :
    (computeContentHash fileBytes).2 = fileBytes ∧
    (computeContentHash fileBytes).1 = hexEncode (sha256 (computeContentHash fileBytes).2) ∧
    (computeContentHash fileBytes).1.length = 64 ∧
    (∀ c ∈ (computeContentHash fileBytes).1.data, c ∈ hexAlphabet) ∧
    (loadIndex none target).hashAlgo = "sha256" := by
  refine ⟨rfl, rfl, ?_, ?_, rfl⟩
  · show (sha256hex fileBytes).length = 64
    unfold sha256hex
    rw [hexEncode_length, sha256_length]
  · exact hexEncode_chars _

/-- C10 counterexample: supplying a whitespace-only label does NOT always
make the scan fail — with a missing target file the scan returns a
successful `not-created` result (the terminal missing-target check runs
before label validation), refuting the claim as stated. -/
theorem c10_counterexample_no_error :
    scan false (some " ") ⟨3, 1000, 5, 7⟩ ⟨2000, "20240101-120000"⟩ "id1" "/t/auth.json"
        ⟨none, [], none⟩ =
      (.ok ⟨false, none, reasonMissing⟩, ⟨none, [], none⟩) := rfl

/-- C10 (amended): an explicit empty-or-whitespace label is never
accepted and never replaced by a synthesized label — (1) whenever the
scan reaches label resolution (target exists, fast signature changed,
content digest not already present) it fails with the empty-remark error,
leaving the world (backup directory and index) untouched; (2) no scan
carrying such a label ever returns a created result. -/
theorem c10_blank_label_rejected :
    (∀ (isAuto : Bool) (st : FileStat) (clock : Clock) (newId tp : String) (w : World)
      (fileBytes : List Nat) (r : String),
      w.target = some fileBytes →
      (loadIndex w.disk tp).latestFingerprint ≠ computeFingerprint st →
      findByContentHash (loadIndex w.disk tp).items (sha256hex fileBytes) = none →
      goTrimSpace r = "" →
      scan isAuto (some r) st clock newId tp w = (.error .emptyRemark, w)) ∧
    (∀ (isAuto : Bool) (st : FileStat) (clock : Clock) (newId tp : String) (w : World)
      (r : String) (res : ScanResult) (w' : World),
      goTrimSpace r = "" →
      scan isAuto (some r) st clock newId tp w = (.ok res, w') →
      res.created = false) := by
  have hprep : ∀ (idx : IndexData) (isAuto : Bool) (clock : Clock) (r : String),
      goTrimSpace r = "" → prepareRemark idx isAuto (some r) clock = .error .emptyRemark := by
    intro idx isAuto clock r hr
    simp [prepareRemark, hr]
  constructor
  · intro isAuto st clock newId tp w fileBytes r htarget hchanged hfind hr
    unfold scan
    rw [htarget]
    dsimp only
    rw [if_neg hchanged]
    dsimp only [computeContentHash]
    rw [hfind, hprep _ _ _ _ hr]
  · intro isAuto st clock newId tp w r res w' hr hscan
    cases htv : w.target with
    | none =>
        unfold scan at hscan
        rw [htv] at hscan
        dsimp only at hscan
        have : ScanResult.mk false none reasonMissing = res := by
          have := congrArg (fun p => p.1) hscan
          simpa using this
        rw [← this]
    | some fileBytes =>
        unfold scan at hscan
        rw [htv] at hscan
        dsimp only at hscan
        by_cases hfp : (loadIndex w.disk tp).latestFingerprint = computeFingerprint st
        · rw [if_pos hfp] at hscan
          have : ScanResult.mk false none reasonUnchanged = res := by
            have := congrArg (fun p => p.1) hscan
            simpa using this
          rw [← this]
        · rw [if_neg hfp] at hscan
          dsimp only [computeContentHash] at hscan
          cases hcc : findByContentHash (loadIndex w.disk tp).items (sha256hex fileBytes) with
          | some it =>
              rw [hcc] at hscan
              dsimp only at hscan
              have : ScanResult.mk false none reasonDuplicate = res := by
                have := congrArg (fun p => p.1) hscan
                simpa using this
              rw [← this]
          | none =>
              rw [hcc, hprep _ _ _ _ hr] at hscan
              dsimp only at hscan
              have := congrArg (fun p => p.1) hscan
              simp at this

/-! ### C5 support: characterizing the delete loop -/

/-- Last element of a list, with a default: the final value of Go's
`removed` variable over the sequence of matching items. -/
def lastGet : List BackupItem → BackupItem → BackupItem
  | [], d => d
  | x :: xs, _ => lastGet xs x

theorem deleteFold_spec (id : String) (items : List BackupItem) :
    ∀ kept found removed latest,
      items.foldl (deleteStep id) (kept, found, removed, latest) =
        (kept ++ items.filter (fun it => it.id ≠ id),
         found || items.any (fun it => it.id = id),
         lastGet (items.filter (fun it => it.id = id)) removed,
         (items.filter (fun it => it.id ≠ id)).foldl maxStep latest) := by
  induction items with
  | nil => intro kept found removed latest; simp [lastGet]
  | cons it rest ih =>
      intro kept found removed latest
      rw [List.foldl_cons]
      by_cases hid : it.id = id
      · have hstep : deleteStep id (kept, found, removed, latest) it =
            (kept, true, it, latest) := by
          unfold deleteStep
          dsimp only
          rw [if_pos hid]
        rw [hstep, ih]
        have h1 : (it :: rest).filter (fun x => x.id ≠ id) =
            rest.filter (fun x => x.id ≠ id) := by
          simp [List.filter_cons, hid]
        have h2 : (it :: rest).filter (fun x => x.id = id) =
            it :: rest.filter (fun x => x.id = id) := by
          simp [List.filter_cons, hid]
        have h3 : (it :: rest).any (fun x => x.id = id) = true := by simp [hid]
        rw [h1, h2, h3]
        simp [lastGet]
      · have hstep : deleteStep id (kept, found, removed, latest) it =
            (kept ++ [it], found, removed, maxStep latest it) := by
          unfold deleteStep
          dsimp only
          rw [if_neg hid]
        rw [hstep, ih]
        simp [List.filter_cons, hid, lastGet]

theorem maxfold_ge (l : List BackupItem) :
    ∀ cur, (∀ it ∈ l, 0 < it.createdAt) →
      cur.createdAt ≤ (l.foldl maxStep cur).createdAt ∧
      ∀ it ∈ l, it.createdAt ≤ (l.foldl maxStep cur).createdAt := by
  induction l with
  | nil => intro cur _; exact ⟨le_refl _, by simp⟩
  | cons h t ih =>
      intro cur hpos
      rw [List.foldl_cons]
      have hpos' : ∀ it ∈ t, 0 < it.createdAt := fun it hit => hpos it (by simp [hit])
      obtain ⟨ih1, ih2⟩ := ih (maxStep cur h) hpos'
      have hcur : cur.createdAt ≤ (maxStep cur h).createdAt := by
        unfold maxStep
        by_cases hc : cur.createdAt = 0 ∨ h.createdAt > cur.createdAt
        · rw [if_pos hc]
          rcases hc with hc | hc <;> omega
        · rw [if_neg hc]
      have hh : h.createdAt ≤ (maxStep cur h).createdAt := by
        unfold maxStep
        by_cases hc : cur.createdAt = 0 ∨ h.createdAt > cur.createdAt
        · rw [if_pos hc]
        · rw [if_neg hc]
          push_neg at hc
          exact hc.2
      refine ⟨le_trans hcur ih1, ?_⟩
      intro it hit
      rcases List.mem_cons.mp hit with hit | hit
      · rw [hit]
        exact le_trans hh ih1
      · exact ih2 it hit

theorem maxfold_mem (l : List BackupItem) :
    ∀ cur, l.foldl maxStep cur = cur ∨ l.foldl maxStep cur ∈ l := by
  induction l with
  | nil => intro cur; exact Or.inl rfl
  | cons h t ih =>
      intro cur
      rw [List.foldl_cons]
      have hstep : maxStep cur h = cur ∨ maxStep cur h = h := by
        unfold maxStep
        by_cases hc : cur.createdAt = 0 ∨ h.createdAt > cur.createdAt
        · rw [if_pos hc]; exact Or.inr rfl
        · rw [if_neg hc]; exact Or.inl rfl
      rcases ih (maxStep cur h) with hfold | hfold
      · rw [hfold]
        rcases hstep with hs | hs
        · exact Or.inl hs
        · exact Or.inr (by simp [hs])
      · exact Or.inr (by simp [hfold])

/-- Under unique ids, the matching sublist for a present id is a
singleton. -/
theorem filter_id_singleton {items : List BackupItem} {it0 : BackupItem} {id : String}
    (hnodup : (items.map (fun it => it.id)).Nodup) (hmem : it0 ∈ items) (hid : it0.id = id) :
    items.filter (fun it => it.id = id) = [it0] := by
  induction items with
  | nil => simp at hmem
  | cons h t ih =>
      simp only [List.map_cons, List.nodup_cons] at hnodup
      obtain ⟨hnotin, hnodup'⟩ := hnodup
      rcases List.mem_cons.mp hmem with hm | hm
      · subst hm
        rw [List.filter_cons, if_pos (by simpa using hid)]
        have hnone : t.filter (fun it => it.id = id) = [] := by
          rw [List.filter_eq_nil_iff]
          intro a ha
          simp only [decide_eq_true_eq]
          intro haid
          exact hnotin (by
            rw [← hid] at haid
            exact (List.mem_map.mpr ⟨a, ha, haid⟩))
        rw [hnone]
      · have hne : it0.id ≠ h.id := by
          intro hh
          exact hnotin (List.mem_map.mpr ⟨it0, hm, hh⟩)
        have hne2 : ¬(h.id = id) := by
          rw [← hid]
          exact fun hc => hne hc.symm
        rw [List.filter_cons, if_neg (by simpa using hne2)]
        exact ih hnodup' hm

/-- Mutating only items/remarks/latestFingerprint of a loaded index keeps
`ensureDefaults` a no-op (the defaulted fields are untouched). -/
theorem ensureDefaults_update (disk : Option IndexData) (tp : String)
    (items' : List BackupItem) (remarks' : List (String × String)) (fp' : String) :
    ensureDefaults tp { loadIndex disk tp with
      items := items', remarks := remarks', latestFingerprint := fp' } =
    { loadIndex disk tp with
      items := items', remarks := remarks', latestFingerprint := fp' } := by
  have hfix := ensureDefaults_loadIndex disk tp
  have h1 : (if (loadIndex disk tp).hashAlgo = "" then "sha256"
      else (loadIndex disk tp).hashAlgo) = (loadIndex disk tp).hashAlgo :=
    congrArg IndexData.hashAlgo hfix
  have h2 : (if (loadIndex disk tp).targetPath = "" then tp
      else (loadIndex disk tp).targetPath) = (loadIndex disk tp).targetPath :=
    congrArg IndexData.targetPath hfix
  unfold ensureDefaults
  simp [h1, h2]

private theorem c5_aux_notfound {disk : Option IndexData} {tp id : String}
    (hnone : ∀ it ∈ (loadIndex disk tp).items, it.id ≠ id) :
    storeDeleteBackup disk tp id = (.error .backupNotFound, disk) := by
  have hany : (loadIndex disk tp).items.any (fun it => it.id = id) = false := by
    rw [List.any_eq_false]
    intro it hit
    simpa using hnone it hit
  have hmut : deleteBackupMut id (loadIndex disk tp) = .error .backupNotFound := by
    unfold deleteBackupMut
    rw [deleteFold_spec]
    dsimp only
    rw [hany]
    simp
  unfold storeDeleteBackup storeUpdateA
  rw [hmut]

private theorem c5_aux_found (disk : Option IndexData) (tp id : String)
    (hnodup : ((loadIndex disk tp).items.map (fun it => it.id)).Nodup)
    (hpos : ∀ it ∈ (loadIndex disk tp).items, 0 < it.createdAt)
    (hids : ∀ it ∈ (loadIndex disk tp).items, it.id ≠ "")
    (it0 : BackupItem) (hmem : it0 ∈ (loadIndex disk tp).items) (hid : it0.id = id) :
    ∃ idx', storeDeleteBackup disk tp id = (.ok (it0, idx'), some idx') ∧
      idx'.items = (loadIndex disk tp).items.filter (fun it => it.id ≠ id) ∧
      idx'.remarks = (if it0.remark ≠ "" then eraseA (loadIndex disk tp).remarks it0.remark
        else (loadIndex disk tp).remarks) ∧
      (idx'.items = [] → idx'.latestFingerprint = "") ∧
      (idx'.items ≠ [] → ∃ newest ∈ idx'.items,
        idx'.latestFingerprint = newest.fileFingerprint ∧
        ∀ it ∈ idx'.items, it.createdAt ≤ newest.createdAt) := by
  set idx := loadIndex disk tp with hidx
  set kept := idx.items.filter (fun it => it.id ≠ id) with hkept
  set latest := kept.foldl maxStep zeroItem with hlatest
  have hany : idx.items.any (fun it => it.id = id) = true := by
    rw [List.any_eq_true]
    exact ⟨it0, hmem, by simpa using hid⟩
  have hsingle : idx.items.filter (fun it => it.id = id) = [it0] :=
    filter_id_singleton hnodup hmem hid
  have hkeptsub : ∀ it ∈ kept, it ∈ idx.items := by
    intro it hit
    exact List.mem_of_mem_filter hit
  have hmut : deleteBackupMut id idx = .ok (it0,
      { idx with
        items := kept,
        remarks := if it0.remark ≠ "" then eraseA idx.remarks it0.remark else idx.remarks,
        latestFingerprint := if latest.id ≠ "" then latest.fileFingerprint else "" }) := by
    unfold deleteBackupMut
    rw [deleteFold_spec]
    dsimp only
    rw [hany, hsingle]
    simp [hkept, hlatest, lastGet]
  refine ⟨{ idx with
      items := kept,
      remarks := if it0.remark ≠ "" then eraseA idx.remarks it0.remark else idx.remarks,
      latestFingerprint := if latest.id ≠ "" then latest.fileFingerprint else "" }, ?_, rfl, rfl,
      ?_, ?_⟩
  · unfold storeDeleteBackup storeUpdateA
    rw [hmut]
    dsimp only
    congr 1
    · congr 1
      congr 1
      exact ensureDefaults_update disk tp _ _ _
    · congr 1
      exact ensureDefaults_update disk tp _ _ _
  · intro hnil
    dsimp only at hnil ⊢
    rw [hnil] at hlatest
    have : latest = zeroItem := by rw [hlatest]; rfl
    rw [this]
    simp [zeroItem]
  · intro hne
    dsimp only at hne ⊢
    have hposk : ∀ it ∈ kept, 0 < it.createdAt := fun it hit => hpos it (hkeptsub it hit)
    obtain ⟨hcur, hge⟩ := maxfold_ge kept zeroItem hposk
    have hlmem : latest ∈ kept := by
      rcases maxfold_mem kept zeroItem with hl | hl
      · exfalso
        obtain ⟨h0, t0, hht⟩ := List.exists_cons_of_ne_nil hne
        have h1 : h0.createdAt ≤ latest.createdAt := hge h0 (by rw [hht]; simp)
        have h2 : 0 < h0.createdAt := hposk h0 (by rw [hht]; simp)
        rw [hlatest, hl] at *
        simp [zeroItem] at h1
        omega
      · exact hl
    have hlid : latest.id ≠ "" := hids latest (hkeptsub latest hlmem)
    refine ⟨latest, hlmem, ?_, ?_⟩
    · rw [if_pos hlid]
    · intro it hit
      exact hge it hit

/-- C5: delete-entry removes the entry with the given id together with
its label mapping and recomputes `latestSignature` as the fast signature
of the newest remaining entry by creation time (clearing it when no entry
remains), while deleting an unknown id fails with `backupNotFound` and
leaves the persisted index unchanged.  (Entries have positive creation
times and non-empty ids, as created by the service.) -/
theorem c5_delete_backup (disk : Option IndexData) (tp id : String)
    (hnodup : ((loadIndex disk tp).items.map (fun it => it.id)).Nodup)
    (hpos : ∀ it ∈ (loadIndex disk tp).items, 0 < it.createdAt)
    (hids : ∀ it ∈ (loadIndex disk tp).items, it.id ≠ "") :
    ((∀ it ∈ (loadIndex disk tp).items, it.id ≠ id) →
      storeDeleteBackup disk tp id = (.error .backupNotFound, disk)) ∧
    (∀ it0 ∈ (loadIndex disk tp).items, it0.id = id →
      ∃ idx', storeDeleteBackup disk tp id = (.ok (it0, idx'), some idx') ∧
        idx'.items = (loadIndex disk tp).items.filter (fun it => it.id ≠ id) ∧
        idx'.remarks = (if it0.remark ≠ "" then eraseA (loadIndex disk tp).remarks it0.remark
          else (loadIndex disk tp).remarks) ∧
        (idx'.items = [] → idx'.latestFingerprint = "") ∧
        (idx'.items ≠ [] → ∃ newest ∈ idx'.items,
          idx'.latestFingerprint = newest.fileFingerprint ∧
          ∀ it ∈ idx'.items, it.createdAt ≤ newest.createdAt)) := by
  constructor
  · intro hnone
    apply c5_aux_notfound
    exact hnone
  · intro it0 hmem hid
    exact c5_aux_found disk tp id hnodup hpos hids it0 hmem hid

/-- C5 witness: deleting the newest of two entries succeeds (remaining
entry becomes the newest; its fast signature is the recomputed latest),
and deleting an unknown id fails with `backupNotFound`, on a concrete
two-entry index. -/
theorem c5_witness :
    (storeDeleteBackup
        (some ⟨"/t", "sha256", "fpB",
          [⟨"idA", "fA.json", "hA", "fpA", 3, 100, "a", false, "/t", 90⟩,
           ⟨"idB", "fB.json", "hB", "fpB", 3, 200, "b", true, "/t", 190⟩],
          [("a", "idA"), ("b", "idB")]⟩) "/t" "missing" =
      (.error .backupNotFound,
        some ⟨"/t", "sha256", "fpB",
          [⟨"idA", "fA.json", "hA", "fpA", 3, 100, "a", false, "/t", 90⟩,
           ⟨"idB", "fB.json", "hB", "fpB", 3, 200, "b", true, "/t", 190⟩],
          [("a", "idA"), ("b", "idB")]⟩)) ∧
    (∃ idx', storeDeleteBackup
        (some ⟨"/t", "sha256", "fpB",
          [⟨"idA", "fA.json", "hA", "fpA", 3, 100, "a", false, "/t", 90⟩,
           ⟨"idB", "fB.json", "hB", "fpB", 3, 200, "b", true, "/t", 190⟩],
          [("a", "idA"), ("b", "idB")]⟩) "/t" "idB" =
          (.ok (⟨"idB", "fB.json", "hB", "fpB", 3, 200, "b", true, "/t", 190⟩, idx'),
            some idx') ∧
      idx'.items = (loadIndex
        (some ⟨"/t", "sha256", "fpB",
          [⟨"idA", "fA.json", "hA", "fpA", 3, 100, "a", false, "/t", 90⟩,
           ⟨"idB", "fB.json", "hB", "fpB", 3, 200, "b", true, "/t", 190⟩],
          [("a", "idA"), ("b", "idB")]⟩) "/t").items.filter (fun it => it.id ≠ "idB") ∧
      idx'.remarks = (if (⟨"idB", "fB.json", "hB", "fpB", 3, 200, "b", true, "/t",
          190⟩ : BackupItem).remark ≠ "" then
        eraseA (loadIndex
          (some ⟨"/t", "sha256", "fpB",
            [⟨"idA", "fA.json", "hA", "fpA", 3, 100, "a", false, "/t", 90⟩,
             ⟨"idB", "fB.json", "hB", "fpB", 3, 200, "b", true, "/t", 190⟩],
            [("a", "idA"), ("b", "idB")]⟩) "/t").remarks "b"
        else (loadIndex
          (some ⟨"/t", "sha256", "fpB",
            [⟨"idA", "fA.json", "hA", "fpA", 3, 100, "a", false, "/t", 90⟩,
             ⟨"idB", "fB.json", "hB", "fpB", 3, 200, "b", true, "/t", 190⟩],
            [("a", "idA"), ("b", "idB")]⟩) "/t").remarks) ∧
      (idx'.items = [] → idx'.latestFingerprint = "") ∧
      (idx'.items ≠ [] → ∃ newest ∈ idx'.items,
        idx'.latestFingerprint = newest.fileFingerprint ∧
        ∀ it ∈ idx'.items, it.createdAt ≤ newest.createdAt)) :=
  ⟨(c5_delete_backup _ "/t" "missing" (by decide) (by decide) (by decide)).1 (by decide),
   (c5_delete_backup _ "/t" "idB" (by decide) (by decide) (by decide)).2
     ⟨"idB", "fB.json", "hB", "fpB", 3, 200, "b", true, "/t", 190⟩ (by decide) rfl⟩

/-! ### C2 support: invariant preservation of the store operations -/

theorem mem_insertA {β : Type} {m : List (String × β)} {k : String} {v : β}
    {p : String × β} (h : p ∈ insertA m k v) : p = (k, v) ∨ (p ∈ m ∧ p.1 ≠ k) := by
  unfold insertA at h
  by_cases hmem : m.any (fun q => q.1 = k)
  · rw [if_pos hmem] at h
    obtain ⟨q, hq, hpq⟩ := List.mem_map.mp h
    by_cases hqk : q.1 = k
    · rw [if_pos hqk] at hpq
      exact Or.inl hpq.symm
    · rw [if_neg hqk] at hpq
      exact Or.inr ⟨hpq ▸ hq, hpq ▸ hqk⟩
  · rw [if_neg hmem] at h
    simp only [List.any_eq_true, decide_eq_true_eq, not_exists, not_and] at hmem
    rcases List.mem_append.mp h with h | h
    · exact Or.inr ⟨h, hmem p h⟩
    · simp only [List.mem_singleton] at h
      exact Or.inl h

theorem mem_eraseA {β : Type} {m : List (String × β)} {k : String} {p : String × β}
    (h : p ∈ eraseA m k) : p ∈ m ∧ p.1 ≠ k := by
  unfold eraseA at h
  have := List.mem_filter.mp h
  exact ⟨this.1, by simpa using this.2⟩

/-- The first-match in-place remark update decomposes the list around the
found item. -/
theorem setRemarkFirst_decomp {items : List BackupItem} {id : String} {item : BackupItem}
    (hfind : items.find? (fun it => it.id = id) = some item) (r : String) :
    ∃ l1 l2, items = l1 ++ item :: l2 ∧
      setRemarkFirst items id r = l1 ++ { item with remark := r } :: l2 ∧
      ∀ x ∈ l1, x.id ≠ id := by
  induction items with
  | nil => simp at hfind
  | cons h t ih =>
      by_cases hh : h.id = id
      · have : h = item := by
          rw [List.find?_cons_of_pos _ (by simpa using hh)] at hfind
          simpa using hfind
        subst this
        refine ⟨[], t, by simp, ?_, by simp⟩
        unfold setRemarkFirst
        rw [if_pos hh]
        simp
      · rw [List.find?_cons_of_neg _ (by simpa using hh)] at hfind
        obtain ⟨l1, l2, hsplit, hset, hl1⟩ := ih hfind
        refine ⟨h :: l1, l2, by simp [hsplit], ?_, ?_⟩
        · unfold setRemarkFirst
          rw [if_neg hh]
          simp [hset]
        · intro x hx
          rcases List.mem_cons.mp hx with hx | hx
          · exact hx ▸ hh
          · exact hl1 x hx

/-- Ids provide injectivity of membership under the id-nodup invariant. -/
theorem ids_inj {items : List BackupItem}
    (hnodup : (items.map (fun it => it.id)).Nodup)
    {x y : BackupItem} (hx : x ∈ items) (hy : y ∈ items) (h : x.id = y.id) : x = y :=
  List.inj_on_of_nodup_map hnodup hx hy h

/-- Adding an entry with a fresh id preserves the label invariant. -/
theorem inv_add {idx : IndexData} {item : BackupItem} {fp : String}
    (hinv : IndexInv idx) (hfresh : ∀ it ∈ idx.items, it.id ≠ item.id)
    {res : Unit × IndexData} (hok : addBackupMut item fp idx = .ok res) :
    IndexInv res.2 := by
  obtain ⟨inv1, inv2, inv3, inv4, inv5⟩ := hinv
  have hnodup' : ((idx.items ++ [item]).map (fun it => it.id)).Nodup := by
    rw [List.map_append]
    rw [List.nodup_append]
    refine ⟨inv1, by simp, ?_⟩
    intro a ha hb
    simp only [List.map_cons, List.map_nil, List.mem_singleton] at hb
    obtain ⟨x, hx, hxa⟩ := List.mem_map.mp ha
    subst hb
    exact hfresh x hx hxa
  unfold addBackupMut at hok
  by_cases hrem : item.remark ≠ ""
  · rw [if_pos hrem] at hok
    cases hlook : lookupA idx.remarks item.remark with
    | some existing =>
        rw [hlook] at hok
        dsimp only at hok
        by_cases hex : existing ≠ item.id
        · rw [if_pos hex] at hok
          exact absurd hok (by simp)
        · push_neg at hex
          subst hex
          obtain ⟨_, x, hx, _, hxid⟩ := inv4 _ (lookupA_mem hlook)
          exact absurd hxid (hfresh x hx)
    | none =>
        rw [hlook] at hok
        dsimp only at hok
        have hres : res.2 = { idx with
            remarks := insertA idx.remarks item.remark item.id,
            items := idx.items ++ [item],
            latestFingerprint := fp } := by
          have := congrArg (fun r => match r with
            | Except.ok (a, b) => b
            | Except.error _ => idx) hok
          simpa using this.symm
        rw [hres]
        have hnoowner : ∀ x ∈ idx.items, x.remark ≠ item.remark := by
          intro x hx hxr
          have := inv5 x hx (by rw [hxr]; exact hrem)
          rw [hxr, hlook] at this
          exact absurd this (by simp)
        refine ⟨hnodup', ?_, keysNodup_insertA _ _ inv3, ?_, ?_⟩
        · intro it1 hit1 it2 hit2 h1ne h12
          rcases List.mem_append.mp hit1 with hm1 | hm1 <;>
            rcases List.mem_append.mp hit2 with hm2 | hm2
          · exact inv2 it1 hm1 it2 hm2 h1ne h12
          · simp only [List.mem_singleton] at hm2
            subst hm2
            exact absurd (h12 ▸ h1ne) (fun hc => hc (hnoowner it1 hm1 h12).elim)
          · simp only [List.mem_singleton] at hm1
            subst hm1
            exact absurd h12 (fun hc => hnoowner it2 hm2 hc.symm)
          · simp only [List.mem_singleton] at hm1 hm2
            rw [hm1, hm2]
        · intro p hp
          rcases mem_insertA hp with hpe | ⟨hpm, hpk⟩
          · subst hpe
            exact ⟨hrem, item, by simp, rfl, rfl⟩
          · obtain ⟨hne, x, hx, hxr, hxid⟩ := inv4 p hpm
            exact ⟨hne, x, by simp [hx], hxr, hxid⟩
        · intro it hit hitrem
          rcases List.mem_append.mp hit with hm | hm
          · have hne : it.remark ≠ item.remark := hnoowner it hm
            rw [lookupA_insertA_ne _ _ _ _ hne]
            exact inv5 it hm hitrem
          · simp only [List.mem_singleton] at hm
            subst hm
            exact lookupA_insertA_self _ _ _
  · rw [if_neg hrem] at hok
    push_neg at hrem
    have hres : res.2 = { idx with
        items := idx.items ++ [item], latestFingerprint := fp } := by
      have := congrArg (fun r => match r with
        | Except.ok (a, b) => b
        | Except.error _ => idx) hok
      simpa using this.symm
    rw [hres]
    refine ⟨hnodup', ?_, inv3, ?_, ?_⟩
    · intro it1 hit1 it2 hit2 h1ne h12
      rcases List.mem_append.mp hit1 with hm1 | hm1 <;>
        rcases List.mem_append.mp hit2 with hm2 | hm2
      · exact inv2 it1 hm1 it2 hm2 h1ne h12
      · simp only [List.mem_singleton] at hm2
        subst hm2
        exact absurd (h12 ▸ h1ne) (by rw [hrem]; simp)
      · simp only [List.mem_singleton] at hm1
        subst hm1
        exact absurd h1ne (by rw [hrem]; simp)
      · simp only [List.mem_singleton] at hm1 hm2
        rw [hm1, hm2]
    · intro p hp
      obtain ⟨hne, x, hx, hxr, hxid⟩ := inv4 p hp
      exact ⟨hne, x, by simp [hx], hxr, hxid⟩
    · intro it hit hitrem
      rcases List.mem_append.mp hit with hm | hm
      · exact inv5 it hm hitrem
      · simp only [List.mem_singleton] at hm
        subst hm
        exact absurd hrem hitrem

/-- Renaming a label through `Store.UpdateRemark` preserves the label
invariant. -/
theorem inv_setRemark {idx : IndexData} {id newRemark : String} (hinv : IndexInv idx)
    {res : BackupItem × IndexData} (hok : updateRemarkMut id newRemark idx = .ok res) :
    IndexInv res.2 := by
  obtain ⟨inv1, inv2, inv3, inv4, inv5⟩ := hinv
  unfold updateRemarkMut at hok
  cases hfind : idx.items.find? (fun it => it.id = id) with
  | none =>
      rw [hfind] at hok
      exact absurd hok (by simp)
  | some item =>
      rw [hfind] at hok
      dsimp only at hok
      have hitem_mem : item ∈ idx.items := List.mem_of_find?_eq_some hfind
      have hitem_id : item.id = id := by simpa using List.find?_some hfind
      by_cases hsame : item.remark = newRemark
      · rw [if_pos hsame] at hok
        have hres : res.2 = idx := by
          have := congrArg (fun r => match r with
            | Except.ok (a, b) => b | Except.error _ => idx) hok
          simpa using this.symm
        rw [hres]
        exact ⟨inv1, inv2, inv3, inv4, inv5⟩
      · rw [if_neg hsame] at hok
        cases hlk : (if newRemark ≠ "" then lookupA idx.remarks newRemark else none) with
        | some existing =>
            rw [hlk] at hok
            dsimp only at hok
            by_cases hex : existing ≠ id
            · rw [if_pos hex] at hok
              exact absurd hok (by simp)
            · push_neg at hex
              subst hex
              have hnr : newRemark ≠ "" := by
                intro hc
                rw [if_neg (by simpa using hc)] at hlk
                exact absurd hlk (by simp)
              rw [if_pos hnr] at hlk
              obtain ⟨_, x, hx, hxr, hxid⟩ := inv4 _ (lookupA_mem hlk)
              have hxi : x = item := ids_inj inv1 hx hitem_mem (by rw [hxid, hitem_id])
              exact absurd (hxi ▸ hxr) hsame
        | none =>
            rw [hlk] at hok
            have hnoowner : newRemark ≠ "" → ∀ x ∈ idx.items, x.remark ≠ newRemark := by
              intro hnr x hx hxr
              have hlx := inv5 x hx (by rw [hxr]; exact hnr)
              rw [hxr] at hlx
              rw [if_pos hnr] at hlk
              rw [hlk] at hlx
              exact absurd hlx (by simp)
            obtain ⟨l1, l2, hsplit, hset, hl1⟩ := setRemarkFirst_decomp hfind newRemark
            have hres : res.2 = { idx with
                items := setRemarkFirst idx.items id newRemark,
                remarks := (if newRemark ≠ "" then
                    insertA (if item.remark ≠ "" then eraseA idx.remarks item.remark
                      else idx.remarks) newRemark id
                  else (if item.remark ≠ "" then eraseA idx.remarks item.remark
                    else idx.remarks)) } := by
              have := congrArg (fun r => match r with
                | Except.ok (a, b) => b | Except.error _ => idx) hok
              simpa [updateRemarkMut.updateRemarkApply] using this.symm
            rw [hres, hset]
            set item' : BackupItem := { item with remark := newRemark } with hitem'
            set rem1 := (if item.remark ≠ "" then eraseA idx.remarks item.remark
              else idx.remarks) with hrem1
            set rem2 := (if newRemark ≠ "" then insertA rem1 newRemark id else rem1) with hrem2
            have hsub : ∀ x, x ∈ l1 ++ l2 → x ∈ idx.items := by
              intro x hx
              rw [hsplit]
              rcases List.mem_append.mp hx with hx | hx
              · exact List.mem_append.mpr (Or.inl hx)
              · exact List.mem_append.mpr (Or.inr (List.mem_cons_of_mem _ hx))
            have hids_ne : ∀ x ∈ l1 ++ l2, x.id ≠ item.id := by
              have hperm : (idx.items.map (fun it => it.id)).Nodup := inv1
              rw [hsplit, List.map_append, List.map_cons] at hperm
              have := List.nodup_middle.mp hperm
              rw [List.nodup_cons] at this
              intro x hx hxid
              apply this.1
              rw [← List.map_append]
              exact List.mem_map.mpr ⟨x, hx, hxid⟩
            have hmem' : ∀ x, x ∈ l1 ++ item' :: l2 → x ∈ l1 ++ l2 ∨ x = item' := by
              intro x hx
              rcases List.mem_append.mp hx with hx | hx
              · exact Or.inl (List.mem_append.mpr (Or.inl hx))
              · rcases List.mem_cons.mp hx with hx | hx
                · exact Or.inr hx
                · exact Or.inl (List.mem_append.mpr (Or.inr hx))
            have hitem'_mem : item' ∈ l1 ++ item' :: l2 :=
              List.mem_append.mpr (Or.inr (List.mem_cons_self _ _))
            have hrem_ne : ∀ x ∈ l1 ++ l2, x.remark ≠ "" → x.remark ≠ item.remark := by
              intro x hx hxne hxr
              have hir : item.remark ≠ "" := by rw [← hxr]; exact hxne
              have := inv2 x (hsub x hx) item hitem_mem hxne hxr
              exact hids_ne x hx this
            refine ⟨?_, ?_, ?_, ?_, ?_⟩
            · have hideq : ((l1 ++ item' :: l2).map (fun it => it.id)) =
                  (idx.items.map (fun it => it.id)) := by
                rw [hsplit]
                simp [hitem']
              rw [hideq]
              exact inv1
            · intro it1 hit1 it2 hit2 h1ne h12
              rcases hmem' it1 hit1 with hm1 | hm1 <;> rcases hmem' it2 hit2 with hm2 | hm2
              · exact inv2 it1 (hsub _ hm1) it2 (hsub _ hm2) h1ne h12
              · exfalso
                rw [hm2] at h12
                have hnr : newRemark ≠ "" := by
                  intro hc
                  rw [hitem'] at h12
                  dsimp at h12
                  rw [hc] at h12
                  exact h1ne h12
                exact hnoowner hnr it1 (hsub _ hm1) (by rw [hitem'] at h12; exact h12)
              · exfalso
                rw [hm1] at h1ne h12
                have hnr : newRemark ≠ "" := by
                  intro hc
                  rw [hitem'] at h1ne
                  dsimp at h1ne
                  exact h1ne hc
                exact hnoowner hnr it2 (hsub _ hm2)
                  (by rw [hitem'] at h12; dsimp at h12; exact h12.symm)
              · rw [hm1, hm2]
            · rw [hrem2, hrem1]
              by_cases hnr : newRemark ≠ ""
              · rw [if_pos hnr]
                apply keysNodup_insertA
                by_cases hir : item.remark ≠ ""
                · rw [if_pos hir]; exact keysNodup_eraseA _ inv3
                · rw [if_neg hir]; exact inv3
              · rw [if_neg hnr]
                by_cases hir : item.remark ≠ ""
                · rw [if_pos hir]; exact keysNodup_eraseA _ inv3
                · rw [if_neg hir]; exact inv3
            · intro p hp
              have hfromrem1 : p ∈ rem1 → p.1 ≠ "" ∧
                  ∃ it ∈ l1 ++ item' :: l2, it.remark = p.1 ∧ it.id = p.2 := by
                intro hp1
                have hp0 : p ∈ idx.remarks ∧ (item.remark ≠ "" → p.1 ≠ item.remark) := by
                  rw [hrem1] at hp1
                  by_cases hir : item.remark ≠ ""
                  · rw [if_pos hir] at hp1
                    obtain ⟨hpm, hpne⟩ := mem_eraseA hp1
                    exact ⟨hpm, fun _ => hpne⟩
                  · rw [if_neg hir] at hp1
                    push_neg at hir
                    exact ⟨hp1, fun hc => absurd hir hc⟩
                obtain ⟨hne0, x, hx, hxr, hxid⟩ := inv4 p hp0.1
                have hxitem : x ≠ item := by
                  intro hc
                  subst hc
                  by_cases hir : x.remark ≠ ""
                  · exact (hp0.2 hir) hxr.symm
                  · push_neg at hir
                    rw [hir] at hxr
                    exact hne0 hxr.symm
                have hxmem : x ∈ l1 ++ l2 := by
                  rw [hsplit] at hx
                  rcases List.mem_append.mp hx with hx | hx
                  · exact List.mem_append.mpr (Or.inl hx)
                  · rcases List.mem_cons.mp hx with hx | hx
                    · exact absurd hx hxitem
                    · exact List.mem_append.mpr (Or.inr hx)
                refine ⟨hne0, x, ?_, hxr, hxid⟩
                rcases List.mem_append.mp hxmem with hx | hx
                · exact List.mem_append.mpr (Or.inl hx)
                · exact List.mem_append.mpr (Or.inr (List.mem_cons_of_mem _ hx))
              rw [hrem2] at hp
              by_cases hnr : newRemark ≠ ""
              · rw [if_pos hnr] at hp
                rcases mem_insertA hp with hpe | ⟨hpm, _⟩
                · subst hpe
                  exact ⟨hnr, item', hitem'_mem, rfl, by rw [hitem']; exact hitem_id⟩
                · exact hfromrem1 hpm
              · rw [if_neg hnr] at hp
                exact hfromrem1 hp
            · intro it hit hitrem
              rcases hmem' it hit with hm | hm
              · have hne_new : it.remark ≠ newRemark := by
                  by_cases hnr : newRemark ≠ ""
                  · exact hnoowner hnr it (hsub _ hm)
                  · push_neg at hnr
                    rw [hnr]
                    exact hitrem
                have hne_old : it.remark ≠ item.remark := hrem_ne it hm hitrem
                have hstep1 : lookupA rem1 it.remark = lookupA idx.remarks it.remark := by
                  rw [hrem1]
                  by_cases hir : item.remark ≠ ""
                  · rw [if_pos hir, lookupA_eraseA]
                    rw [if_neg hne_old]
                  · rw [if_neg hir]
                have hstep2 : lookupA rem2 it.remark = lookupA rem1 it.remark := by
                  rw [hrem2]
                  by_cases hnr : newRemark ≠ ""
                  · rw [if_pos hnr]
                    exact lookupA_insertA_ne _ _ _ _ hne_new
                  · rw [if_neg hnr]
                rw [hstep2, hstep1]
                exact inv5 it (hsub _ hm) hitrem
              · subst hm
                have hnr : newRemark ≠ "" := by
                  rw [hitem'] at hitrem
                  exact hitrem
                rw [hrem2, if_pos hnr]
                rw [show item'.remark = newRemark from rfl]
                rw [lookupA_insertA_self]
                rw [show item'.id = item.id from rfl, hitem_id]

/-- Deleting an entry through `Store.DeleteBackup` preserves the label
invariant. -/
theorem inv_del {idx : IndexData} {id : String} (hinv : IndexInv idx)
    {res : BackupItem × IndexData} (hok : deleteBackupMut id idx = .ok res) :
    IndexInv res.2 := by
  obtain ⟨inv1, inv2, inv3, inv4, inv5⟩ := hinv
  unfold deleteBackupMut at hok
  rw [deleteFold_spec] at hok
  dsimp only at hok
  cases hany : idx.items.any (fun it => it.id = id) with
  | false =>
      rw [hany] at hok
      exact absurd hok (by simp)
  | true =>
      rw [hany] at hok
      obtain ⟨it0, hit0, hit0id⟩ := List.any_eq_true.mp hany
      have hit0id' : it0.id = id := by simpa using hit0id
      have hsingle : idx.items.filter (fun it => it.id = id) = [it0] :=
        filter_id_singleton inv1 hit0 hit0id'
      rw [hsingle] at hok
      dsimp only [lastGet] at hok
      simp only [Bool.false_or] at hok
      rw [if_pos trivial] at hok
      have hres : res.2 = { idx with
          items := idx.items.filter (fun it => it.id ≠ id),
          remarks := if it0.remark ≠ "" then eraseA idx.remarks it0.remark else idx.remarks,
          latestFingerprint :=
            if ((idx.items.filter (fun it => it.id ≠ id)).foldl maxStep zeroItem).id ≠ "" then
              ((idx.items.filter (fun it => it.id ≠ id)).foldl maxStep zeroItem).fileFingerprint
            else "" } := by
        have := congrArg (fun r => match r with
          | Except.ok (a, b) => b | Except.error _ => idx) hok
        simpa using this.symm
      rw [hres]
      have hkeptsub : ∀ x, x ∈ idx.items.filter (fun (it : BackupItem) => it.id ≠ id) →
          x ∈ idx.items := by
        intro x hx
        exact List.mem_of_mem_filter hx
      have hkept_ne : ∀ x, x ∈ idx.items.filter (fun (it : BackupItem) => it.id ≠ id) →
          x.id ≠ id := by
        intro x hx
        have := (List.mem_filter.mp hx).2
        simpa using this
      refine ⟨?_, ?_, ?_, ?_, ?_⟩
      · exact ((List.filter_sublist _).map (fun (it : BackupItem) => it.id)).nodup inv1
      · intro it1 hit1 it2 hit2 h1ne h12
        exact inv2 it1 (hkeptsub _ hit1) it2 (hkeptsub _ hit2) h1ne h12
      · by_cases hir : it0.remark ≠ ""
        · rw [if_pos hir]; exact keysNodup_eraseA _ inv3
        · rw [if_neg hir]; exact inv3
      · intro p hp
        have hp0 : p ∈ idx.remarks ∧ (it0.remark ≠ "" → p.1 ≠ it0.remark) := by
          by_cases hir : it0.remark ≠ ""
          · rw [if_pos hir] at hp
            obtain ⟨hpm, hpne⟩ := mem_eraseA hp
            exact ⟨hpm, fun _ => hpne⟩
          · rw [if_neg hir] at hp
            push_neg at hir
            exact ⟨hp, fun hc => absurd hir hc⟩
        obtain ⟨hne0, x, hx, hxr, hxid⟩ := inv4 p hp0.1
        have hxit0 : x ≠ it0 := by
          intro hc
          subst hc
          by_cases hir : x.remark ≠ ""
          · exact (hp0.2 hir) hxr.symm
          · push_neg at hir
            rw [hir] at hxr
            exact hne0 hxr.symm
        have hxkept : x ∈ idx.items.filter (fun (it : BackupItem) => it.id ≠ id) := by
          rw [List.mem_filter]
          refine ⟨hx, ?_⟩
          have hxne2 : x.id ≠ id := fun hc => hxit0 (ids_inj inv1 hx hit0 (by rw [hc, hit0id']))
          simpa using hxne2
        exact ⟨hne0, x, hxkept, hxr, hxid⟩
      · intro it hit hitrem
        have hne_old : it.remark ≠ it0.remark := by
          intro hc
          have := inv2 it (hkeptsub _ hit) it0 hit0 hitrem hc
          exact hkept_ne it hit (by rw [this, hit0id'])
        by_cases hir : it0.remark ≠ ""
        · rw [if_pos hir, lookupA_eraseA, if_neg hne_old]
          exact inv5 it (hkeptsub _ hit) hitrem
        · rw [if_neg hir]
          exact inv5 it (hkeptsub _ hit) hitrem

/-- `ensureDefaults` leaves items and remarks untouched, so it preserves
the label invariant. -/
theorem inv_ensureDefaults (target : String) (x : IndexData) (h : IndexInv x) :
    IndexInv (ensureDefaults target x) := h

/-- C2: label (remark) uniqueness is an invariant of the persisted index:
the freshly initialized index satisfies it, and every successful store
operation — add-entry (with its freshly generated UUID), update-label,
delete-entry — preserves it.  The invariant states that no two entries
share a non-empty label and that the label index contains exactly the
non-empty labels of the entries, each mapping to its owner's id. -/
theorem c2_label_invariant (tp : String) :
    IndexInv (loadIndex none tp) ∧
    (∀ (op : StoreOp) (disk : Option IndexData) (res : Unit) (disk' : Option IndexData),
      IndexInv (loadIndex disk tp) →
      opFresh op (loadIndex disk tp) →
      applyStoreOp op disk tp = (.ok res, disk') →
      IndexInv (loadIndex disk' tp)) := by
  constructor
  · refine ⟨?_, ?_, ?_, ?_, ?_⟩ <;> simp [loadIndex, emptyIndex, ensureDefaults]
  · intro op disk res disk' hinv hfresh happ
    cases op with
    | add item fp =>
        dsimp only [applyStoreOp, storeAddBackup, storeUpdateA] at happ
        cases hmut : addBackupMut item fp (loadIndex disk tp) with
        | error e =>
            rw [hmut] at happ
            dsimp only [Except.map] at happ
            exact absurd (congrArg Prod.fst happ) (by simp)
        | ok pair =>
            obtain ⟨a, idx'⟩ := pair
            rw [hmut] at happ
            dsimp only [Except.map] at happ
            have hdisk' : some (ensureDefaults tp idx') = disk' := congrArg Prod.snd happ
            rw [← hdisk']
            rw [show loadIndex (some (ensureDefaults tp idx')) tp =
              ensureDefaults tp (ensureDefaults tp idx') from rfl, ensureDefaults_idem]
            exact inv_ensureDefaults tp idx' (inv_add hinv hfresh hmut)
    | setRemark id newRemark =>
        dsimp only [applyStoreOp, storeUpdateRemark, storeUpdateA] at happ
        cases hmut : updateRemarkMut id newRemark (loadIndex disk tp) with
        | error e =>
            rw [hmut] at happ
            dsimp only [Except.map] at happ
            exact absurd (congrArg Prod.fst happ) (by simp)
        | ok pair =>
            obtain ⟨a, idx'⟩ := pair
            rw [hmut] at happ
            dsimp only [Except.map] at happ
            have hdisk' : some (ensureDefaults tp idx') = disk' := congrArg Prod.snd happ
            rw [← hdisk']
            rw [show loadIndex (some (ensureDefaults tp idx')) tp =
              ensureDefaults tp (ensureDefaults tp idx') from rfl, ensureDefaults_idem]
            exact inv_ensureDefaults tp idx' (inv_setRemark hinv hmut)
    | del id =>
        dsimp only [applyStoreOp, storeDeleteBackup, storeUpdateA] at happ
        cases hmut : deleteBackupMut id (loadIndex disk tp) with
        | error e =>
            rw [hmut] at happ
            dsimp only [Except.map] at happ
            exact absurd (congrArg Prod.fst happ) (by simp)
        | ok pair =>
            obtain ⟨a, idx'⟩ := pair
            rw [hmut] at happ
            dsimp only [Except.map] at happ
            have hdisk' : some (ensureDefaults tp idx') = disk' := congrArg Prod.snd happ
            rw [← hdisk']
            rw [show loadIndex (some (ensureDefaults tp idx')) tp =
              ensureDefaults tp (ensureDefaults tp idx') from rfl, ensureDefaults_idem]
            exact inv_ensureDefaults tp idx' (inv_del hinv hmut)

/-- C2 witness: adding an entry with a fresh UUID to the empty index
yields a state that still satisfies the invariant (checked concretely). -/
theorem c2_witness :
    IndexInv (loadIndex none "/t") ∧
    applyStoreOp (.add ⟨"id1", "f1.json", "h1", "fp1", 3, 100, "r1", false, "/t", 90⟩ "fp1")
        none "/t" =
      (.ok (), some ⟨"/t", "sha256", "fp1",
        [⟨"id1", "f1.json", "h1", "fp1", 3, 100, "r1", false, "/t", 90⟩],
        [("r1", "id1")]⟩) ∧
    IndexInv (loadIndex (some ⟨"/t", "sha256", "fp1",
      [⟨"id1", "f1.json", "h1", "fp1", 3, 100, "r1", false, "/t", 90⟩],
      [("r1", "id1")]⟩) "/t") :=
  ⟨by decide, rfl,
   (c2_label_invariant "/t").2
     (.add ⟨"id1", "f1.json", "h1", "fp1", 3, 100, "r1", false, "/t", 90⟩ "fp1") none ()
     (some ⟨"/t", "sha256", "fp1",
       [⟨"id1", "f1.json", "h1", "fp1", 3, 100, "r1", false, "/t", 90⟩],
       [("r1", "id1")]⟩)
     (by decide)
     (by intro it hit; simp [loadIndex, emptyIndex, ensureDefaults] at hit)
     rfl⟩

/-! ### C3/C7 support: the commit retry loop of `persistBackup` -/

theorem remCand_ne_empty {base : String} (hb : base ≠ "") (k : Nat) :
    remCand base k ≠ "" := by
  cases k with
  | zero => exact hb
  | succ k =>
      intro hc
      have := congrArg String.data hc
      rw [show remCand base (k + 1) = base ++ "-" ++ natStr (k + 1) from rfl] at this
      rw [String.data_append, String.data_append] at this
      simp at this

theorem remCand_inj {base : String} {i j : Nat} (h : remCand base i = remCand base j) :
    i = j := by
  cases i with
  | zero =>
      cases j with
      | zero => rfl
      | succ j =>
          exfalso
          have hd := congrArg String.data h
          rw [show remCand base 0 = base from rfl,
            show remCand base (j + 1) = base ++ "-" ++ natStr (j + 1) from rfl] at hd
          rw [String.data_append, String.data_append] at hd
          have := congrArg List.length hd
          simp at this
  | succ i =>
      cases j with
      | zero =>
          exfalso
          have hd := congrArg String.data h
          rw [show remCand base (i + 1) = base ++ "-" ++ natStr (i + 1) from rfl,
            show remCand base 0 = base from rfl] at hd
          rw [String.data_append, String.data_append] at hd
          have := congrArg List.length hd
          simp at this
      | succ j =>
          have hd := congrArg String.data h
          rw [show remCand base (i + 1) = base ++ "-" ++ natStr (i + 1) from rfl,
            show remCand base (j + 1) = base ++ "-" ++ natStr (j + 1) from rfl] at hd
          rw [String.data_append, String.data_append, String.data_append,
            String.data_append] at hd
          rw [List.append_assoc, List.append_assoc] at hd
          have htail := List.append_cancel_left hd
          have hstr : natStr (i + 1) = natStr (j + 1) := by
            have := List.append_cancel_left htail
            exact congrArg String.mk this
          exact natStr_inj hstr

/-- A family of pairwise-distinct strings that are all keys of an
association list is no larger than the list. -/
theorem distinct_keys_le {β : Type} (m : List (String × β)) (f : Nat → String)
    (hf : ∀ i j, f i = f j → i = j) (k : Nat)
    (htaken : ∀ j < k, ∃ v, lookupA m (f j) = some v) : k ≤ m.length := by
  have hmem : ∀ j < k, f j ∈ m.map (fun p => p.1) := by
    intro j hj
    obtain ⟨v, hv⟩ := htaken j hj
    exact List.mem_map.mpr ⟨(f j, v), lookupA_mem hv, rfl⟩
  have hcard : ((Finset.range k).image f).card = k := by
    rw [Finset.card_image_of_injective _ (fun a b => hf a b), Finset.card_range]
  have hsub : (Finset.range k).image f ⊆ (m.map (fun p => p.1)).toFinset := by
    intro a ha
    obtain ⟨j, hj, hja⟩ := Finset.mem_image.mp ha
    rw [List.mem_toFinset]
    exact hja ▸ hmem j (Finset.mem_range.mp hj)
  calc k = ((Finset.range k).image f).card := hcard.symm
  _ ≤ (m.map (fun p => p.1)).toFinset.card := Finset.card_le_card hsub
  _ ≤ (m.map (fun p => p.1)).length := List.toFinset_card_le _
  _ = m.length := List.length_map _ _

/-- There is always a free label candidate within `remarks.length + 1`
suffix attempts. -/
theorem exists_free_cand {β : Type} (m : List (String × β)) (base : String) :
    ∃ k ≤ m.length, lookupA m (remCand base k) = none := by
  by_contra hc
  push_neg at hc
  have htaken : ∀ j < m.length + 1, ∃ v, lookupA m (remCand base j) = some v := by
    intro j hj
    have hne := hc j (by omega)
    cases hl : lookupA m (remCand base j) with
    | none => exact absurd hl hne
    | some v => exact ⟨v, rfl⟩
  have := distinct_keys_le m (remCand base) (fun i j => remCand_inj) (m.length + 1) htaken
  omega

theorem storeAddBackup_taken {disk : Option IndexData} {tp : String} {item : BackupItem}
    {fp : String} (hrem : item.remark ≠ "") {v : String}
    (hlk : lookupA (loadIndex disk tp).remarks item.remark = some v) (hv : v ≠ item.id) :
    storeAddBackup disk tp item fp = (.error .remarkExists, disk) := by
  have hmut : addBackupMut item fp (loadIndex disk tp) = .error .remarkExists := by
    unfold addBackupMut
    rw [if_pos hrem, hlk]
    dsimp only
    rw [if_pos hv]
  unfold storeAddBackup storeUpdateA
  rw [hmut]

theorem storeAddBackup_free {disk : Option IndexData} {tp : String} {item : BackupItem}
    {fp : String} (hrem : item.remark ≠ "")
    (hlk : lookupA (loadIndex disk tp).remarks item.remark = none) :
    storeAddBackup disk tp item fp =
      (.ok ((), ensureDefaults tp { loadIndex disk tp with
          remarks := insertA (loadIndex disk tp).remarks item.remark item.id,
          items := (loadIndex disk tp).items ++ [item],
          latestFingerprint := fp }),
        some (ensureDefaults tp { loadIndex disk tp with
          remarks := insertA (loadIndex disk tp).remarks item.remark item.id,
          items := (loadIndex disk tp).items ++ [item],
          latestFingerprint := fp })) := by
  have hmut : addBackupMut item fp (loadIndex disk tp) = .ok ((), { loadIndex disk tp with
      remarks := insertA (loadIndex disk tp).remarks item.remark item.id,
      items := (loadIndex disk tp).items ++ [item],
      latestFingerprint := fp }) := by
    unfold addBackupMut
    rw [if_pos hrem, hlk]
  unfold storeAddBackup storeUpdateA
  rw [hmut]

theorem storeAddBackup_own {disk : Option IndexData} {tp : String} {item : BackupItem}
    {fp : String} (hrem : item.remark ≠ "")
    (hlk : lookupA (loadIndex disk tp).remarks item.remark = some item.id) :
    storeAddBackup disk tp item fp =
      (.ok ((), ensureDefaults tp { loadIndex disk tp with
          remarks := insertA (loadIndex disk tp).remarks item.remark item.id,
          items := (loadIndex disk tp).items ++ [item],
          latestFingerprint := fp }),
        some (ensureDefaults tp { loadIndex disk tp with
          remarks := insertA (loadIndex disk tp).remarks item.remark item.id,
          items := (loadIndex disk tp).items ++ [item],
          latestFingerprint := fp })) := by
  have hmut : addBackupMut item fp (loadIndex disk tp) = .ok ((), { loadIndex disk tp with
      remarks := insertA (loadIndex disk tp).remarks item.remark item.id,
      items := (loadIndex disk tp).items ++ [item],
      latestFingerprint := fp }) := by
    unfold addBackupMut
    rw [if_pos hrem, hlk]
    dsimp only
    rw [if_neg (by simp)]
  unfold storeAddBackup storeUpdateA
  rw [hmut]

theorem storeAddBackup_noremark {disk : Option IndexData} {tp : String} {item : BackupItem}
    {fp : String} (hrem : item.remark = "") :
    storeAddBackup disk tp item fp =
      (.ok ((), ensureDefaults tp { loadIndex disk tp with
          items := (loadIndex disk tp).items ++ [item],
          latestFingerprint := fp }),
        some (ensureDefaults tp { loadIndex disk tp with
          items := (loadIndex disk tp).items ++ [item],
          latestFingerprint := fp })) := by
  have hmut : addBackupMut item fp (loadIndex disk tp) = .ok ((), { loadIndex disk tp with
      items := (loadIndex disk tp).items ++ [item],
      latestFingerprint := fp }) := by
    unfold addBackupMut
    rw [if_neg (by simpa using hrem)]
  unfold storeAddBackup storeUpdateA
  rw [hmut]

/-- If the candidates from attempt `n` up to (excluding) `n + m` are all
taken by other entries and candidate `n + m` is free, the automatic retry
loop commits the entry under candidate `n + m`. -/
theorem persistLoop_reaches (tp fp base : String) (hb : base ≠ "") :
    ∀ (m n fuel : Nat) (disk : Option IndexData) (item : BackupItem),
      item.remark = remCand base n →
      fuel ≥ m + 1 →
      (∀ j, n ≤ j → j < n + m →
        ∃ v, lookupA (loadIndex disk tp).remarks (remCand base j) = some v ∧ v ≠ item.id) →
      lookupA (loadIndex disk tp).remarks (remCand base (n + m)) = none →
      persistLoop tp fp true base fuel disk item (n + 1) =
        (.ok ((), ensureDefaults tp { loadIndex disk tp with
            remarks := insertA (loadIndex disk tp).remarks (remCand base (n + m)) item.id,
            items := (loadIndex disk tp).items ++
              [{ item with remark := remCand base (n + m) }],
            latestFingerprint := fp }),
         some (ensureDefaults tp { loadIndex disk tp with
            remarks := insertA (loadIndex disk tp).remarks (remCand base (n + m)) item.id,
            items := (loadIndex disk tp).items ++
              [{ item with remark := remCand base (n + m) }],
            latestFingerprint := fp })) := by
  intro m
  induction m with
  | zero =>
      intro n fuel disk item hremark hfuel htaken hfree
      obtain ⟨f, rfl⟩ : ∃ f, fuel = f + 1 := ⟨fuel - 1, by omega⟩
      simp only [Nat.add_zero] at hfree ⊢
      have heta : { item with remark := remCand base n } = item := by
        rw [← hremark]
      rw [heta]
      simp only [persistLoop]
      rw [storeAddBackup_free (by rw [hremark]; exact remCand_ne_empty hb n)
        (by rw [hremark]; exact hfree)]
      rw [hremark]
  | succ m ih =>
      intro n fuel disk item hremark hfuel htaken hfree
      obtain ⟨f, rfl⟩ : ∃ f, fuel = f + 1 := ⟨fuel - 1, by omega⟩
      obtain ⟨v, hv, hvne⟩ := htaken n (le_refl n) (by omega)
      simp only [persistLoop]
      rw [storeAddBackup_taken (by rw [hremark]; exact remCand_ne_empty hb n)
        (by rw [hremark]; exact hv) hvne]
      dsimp only
      rw [if_pos ⟨rfl, trivial⟩]
      have harith : n + (m + 1) = (n + 1) + m := by omega
      rw [harith]
      exact ih (n + 1) f disk { item with remark := base ++ "-" ++ natStr (n + 1) } rfl
        (by omega)
        (fun j hj1 hj2 => htaken j (by omega) (by omega))
        (by rw [← harith]; exact hfree)

/-- If some candidate within `n + m` attempts is free (or already owned
by the same id), the automatic retry loop succeeds. -/
theorem persistLoop_succeeds (tp fp base : String) (hb : base ≠ "") :
    ∀ (m n fuel : Nat) (disk : Option IndexData) (item : BackupItem),
      item.remark = remCand base n →
      fuel ≥ m + 1 →
      (∃ j, n ≤ j ∧ j ≤ n + m ∧
        (lookupA (loadIndex disk tp).remarks (remCand base j) = none ∨
         lookupA (loadIndex disk tp).remarks (remCand base j) = some item.id)) →
      ∃ idx', persistLoop tp fp true base fuel disk item (n + 1) =
        (.ok ((), idx'), some idx') := by
  intro m
  induction m with
  | zero =>
      intro n fuel disk item hremark hfuel hfree
      obtain ⟨f, rfl⟩ : ∃ f, fuel = f + 1 := ⟨fuel - 1, by omega⟩
      obtain ⟨j, hj1, hj2, hcond⟩ := hfree
      have hjn : j = n := by omega
      subst hjn
      simp only [persistLoop]
      rcases hcond with hcond | hcond
      · rw [storeAddBackup_free (by rw [hremark]; exact remCand_ne_empty hb j)
          (by rw [hremark]; exact hcond)]
        exact ⟨_, rfl⟩
      · rw [storeAddBackup_own (by rw [hremark]; exact remCand_ne_empty hb j)
          (by rw [hremark]; exact hcond)]
        exact ⟨_, rfl⟩
  | succ m ih =>
      intro n fuel disk item hremark hfuel hfree
      obtain ⟨f, rfl⟩ : ∃ f, fuel = f + 1 := ⟨fuel - 1, by omega⟩
      simp only [persistLoop]
      by_cases hok : lookupA (loadIndex disk tp).remarks (remCand base n) = none ∨
          lookupA (loadIndex disk tp).remarks (remCand base n) = some item.id
      · rcases hok with hok | hok
        · rw [storeAddBackup_free (by rw [hremark]; exact remCand_ne_empty hb n)
            (by rw [hremark]; exact hok)]
          exact ⟨_, rfl⟩
        · rw [storeAddBackup_own (by rw [hremark]; exact remCand_ne_empty hb n)
            (by rw [hremark]; exact hok)]
          exact ⟨_, rfl⟩
      · push_neg at hok
        cases hl : lookupA (loadIndex disk tp).remarks (remCand base n) with
        | none => exact absurd (Or.inl hl) (by push_neg; exact hok)
        | some v =>
            have hvne : v ≠ item.id := by
              intro hc
              exact hok.2 (by rw [hl, hc])
            rw [storeAddBackup_taken (by rw [hremark]; exact remCand_ne_empty hb n)
              (by rw [hremark]; exact hl) hvne]
            dsimp only
            rw [if_pos ⟨rfl, trivial⟩]
            obtain ⟨j, hj1, hj2, hcond⟩ := hfree
            have hjn : j ≠ n := by
              intro hc
              subst hc
              exact absurd hcond (by push_neg; exact hok)
            exact ih (n + 1) f disk { item with remark := base ++ "-" ++ natStr (n + 1) } rfl
              (by omega) ⟨j, by omega, by omega, hcond⟩

/-- If every candidate within the fuel is taken by another entry, the
fuelled loop exhausts and reports the label conflict (the modelled
behavior of a bounded retry loop — the Go loop never stops retrying). -/
theorem persistLoop_exhausts (tp fp base : String) (hb : base ≠ "") :
    ∀ (fuel n : Nat) (disk : Option IndexData) (item : BackupItem),
      item.remark = remCand base n →
      (∀ j, n ≤ j → j < n + fuel →
        ∃ v, lookupA (loadIndex disk tp).remarks (remCand base j) = some v ∧ v ≠ item.id) →
      persistLoop tp fp true base fuel disk item (n + 1) = (.error .remarkExists, disk) := by
  intro fuel
  induction fuel with
  | zero => intro n disk item _ _; rfl
  | succ f ih =>
      intro n disk item hremark htaken
      obtain ⟨v, hv, hvne⟩ := htaken n (le_refl n) (by omega)
      simp only [persistLoop]
      rw [storeAddBackup_taken (by rw [hremark]; exact remCand_ne_empty hb n)
        (by rw [hremark]; exact hv) hvne]
      dsimp only
      rw [if_pos ⟨rfl, trivial⟩]
      exact ih (n + 1) disk { item with remark := base ++ "-" ++ natStr (n + 1) } rfl
        (fun j hj1 hj2 => htaken j (by omega) (by omega))

/-- Looking up any present key in a constant-valued association list
yields that value. -/
theorem lookupA_const_map {β : Type} (v : β) :
    ∀ (keys : List String) (r : String), r ∈ keys →
      lookupA (keys.map (fun k => (k, v))) r = some v := by
  intro keys
  induction keys with
  | nil => intro r hr; simp at hr
  | cons k ks ih =>
      intro r hr
      simp only [List.map_cons, lookupA]
      by_cases hk : k = r
      · rw [if_pos hk]
      · rw [if_neg hk]
        rcases List.mem_cons.mp hr with hr | hr
        · exact absurd hr.symm hk
        · exact ih r hr

/-- C3: label conflicts are handled asymmetrically by trigger kind.
(1) A manual scan that reaches label resolution with a caller-supplied
label already present in the label index fails with the label-conflict
error and changes nothing — no file is written, no entry is created, the
label is not renamed.  (2) On an automatic trigger, a label collision at
commit time is retried internally with an incrementing numeric suffix:
if candidates `base`, `base-1`, …, `base-(k-1)` are taken by other
entries and `base-k` is free, the commit succeeds and the stored entry
carries the suffixed label `base-k`. -/
theorem c3_conflict_asymmetry :
    (∀ (st : FileStat) (clock : Clock) (newId tp : String) (w : World)
      (fileBytes : List Nat) (r v : String),
      w.target = some fileBytes →
      (loadIndex w.disk tp).latestFingerprint ≠ computeFingerprint st →
      findByContentHash (loadIndex w.disk tp).items (sha256hex fileBytes) = none →
      goTrimSpace r ≠ "" →
      lookupA (loadIndex w.disk tp).remarks (goTrimSpace r) = some v →
      scan false (some r) st clock newId tp w = (.error .remarkExists, w)) ∧
    (∀ (disk : Option IndexData) (tp fp : String) (item : BackupItem) (k : Nat),
      item.remark ≠ "" →
      (∀ j < k, ∃ v, lookupA (loadIndex disk tp).remarks (remCand item.remark j) = some v ∧
        v ≠ item.id) →
      lookupA (loadIndex disk tp).remarks (remCand item.remark k) = none →
      ∃ idx', persistBackup disk tp item fp true = (.ok ((), idx'), some idx') ∧
        { item with remark := remCand item.remark k } ∈ idx'.items) := by
  constructor
  · intro st clock newId tp w fileBytes r v htarget hchanged hfind htrim hlk
    have hprep : prepareRemark (loadIndex w.disk tp) false (some r) clock =
        .error .remarkExists := by
      unfold prepareRemark
      dsimp only
      rw [if_neg htrim, hlk]
    unfold scan
    rw [htarget]
    dsimp only
    rw [if_neg hchanged]
    dsimp only [computeContentHash]
    rw [hfind, hprep]
  · intro disk tp fp item k hrem htaken hfree
    have hk_le : k ≤ (loadIndex disk tp).remarks.length := by
      apply distinct_keys_le (loadIndex disk tp).remarks (remCand item.remark)
        (fun i j => remCand_inj) k
      intro j hj
      obtain ⟨v, hv, _⟩ := htaken j hj
      exact ⟨v, hv⟩
    have hreach := persistLoop_reaches tp fp item.remark hrem k 0
      ((loadIndex disk tp).remarks.length + 2) disk item rfl (by omega)
      (fun j hj1 hj2 => htaken j (by omega)) (by simpa using hfree)
    simp only [Nat.zero_add] at hreach
    refine ⟨ensureDefaults tp { loadIndex disk tp with
        remarks := insertA (loadIndex disk tp).remarks (remCand item.remark k) item.id,
        items := (loadIndex disk tp).items ++
          [{ item with remark := remCand item.remark k }],
        latestFingerprint := fp }, ?_, ?_⟩
    · unfold persistBackup
      exact hreach
    · show ({ item with remark := remCand item.remark k } : BackupItem) ∈
        (loadIndex disk tp).items ++ [{ item with remark := remCand item.remark k }]
      exact List.mem_append.mpr (Or.inr (List.mem_singleton.mpr rfl))

/-- C3 witness: (1) a manual scan with the already-taken label "taken"
fails with the conflict error; (2) an automatic commit whose label "r" is
taken retries and commits under "r-1". -/
theorem c3_witness :
    scan false (some "taken") ⟨1, 10, 2, 3⟩ ⟨99, "20240101-120000"⟩ "idX" "/t"
        ⟨some [97], [], some ⟨"/t", "sha256", "old", [], [("taken", "e1")]⟩⟩ =
      (.error .remarkExists,
        ⟨some [97], [], some ⟨"/t", "sha256", "old", [], [("taken", "e1")]⟩⟩) ∧
    (∃ idx', persistBackup (some ⟨"", "", "", [], [("r", "other")]⟩) "/t"
        ⟨"me", "f.json", "h", "fp", 1, 50, "r", true, "/t", 40⟩ "fp" true =
        (.ok ((), idx'), some idx') ∧
      ({ (⟨"me", "f.json", "h", "fp", 1, 50, "r", true, "/t", 40⟩ : BackupItem) with
          remark := remCand "r" 1 } : BackupItem) ∈ idx'.items) :=
  ⟨c3_conflict_asymmetry.1 ⟨1, 10, 2, 3⟩ ⟨99, "20240101-120000"⟩ "idX" "/t"
     ⟨some [97], [], some ⟨"/t", "sha256", "old", [], [("taken", "e1")]⟩⟩ [97] "taken" "e1"
     rfl (by decide) (by decide) (by decide) (by decide),
   c3_conflict_asymmetry.2 (some ⟨"", "", "", [], [("r", "other")]⟩) "/t" "fp"
     ⟨"me", "f.json", "h", "fp", 1, 50, "r", true, "/t", 40⟩ 1 (by decide)
     (fun j hj => by
       interval_cases j
       exact ⟨"other", rfl, by decide⟩)
     (by decide)⟩

/-- C7 counterexample: the automatic-commit retry loop is not bounded by
any retry count: for every candidate bound `N` there is an index state
(one with `N + 1` colliding labels) on which a loop limited to `N + 1`
attempts exhausts them all and would surface the label conflict, so no
fixed "sane retry count" bounds the code's retrying (the Go loop is
literally unbounded). -/
theorem c7_counterexample_unbounded :
    ¬ ∃ N : Nat, ∀ (disk : Option IndexData) (item : BackupItem),
      (persistLoop "/t" "fp" true item.remark (N + 1) disk item 1).1 ≠
        .error .remarkExists := by
  rintro ⟨N, hN⟩
  have hexh := persistLoop_exhausts "/t" "fp" "b" (by decide) (N + 1) 0
    (some ⟨"", "", "", [],
      ((List.range (N + 1)).map (remCand "b")).map (fun k => (k, "x"))⟩)
    ⟨"me", "", "", "", 0, 0, "b", true, "", 0⟩ rfl
    (by
      intro j hj1 hj2
      have hjlt : j < N + 1 := by omega
      refine ⟨"x", ?_, by decide⟩
      show lookupA (((List.range (N + 1)).map (remCand "b")).map (fun k => (k, "x")))
        (remCand "b" j) = some "x"
      exact lookupA_const_map "x" _ _
        (List.mem_map.mpr ⟨j, List.mem_range.mpr hjlt, rfl⟩))
  exact hN _ ⟨"me", "", "", "", 0, 0, "b", true, "", 0⟩ (by rw [hexh])

/-- C7 (amended): the retry performed on an automatic trigger when a
label collision appears at commit time is NOT bounded by any fixed retry
count; instead the loop always terminates successfully — some suffixed
candidate is always free because the label index is finite — and a label
conflict never propagates to the caller of an automatic commit. -/
theorem c7_retry_terminates (disk : Option IndexData) (tp fp : String)
    (item : BackupItem) (hrem : item.remark ≠ "") :
    ∃ idx', persistBackup disk tp item fp true = (.ok ((), idx'), some idx') := by
  obtain ⟨k, hk, hfree⟩ := exists_free_cand (loadIndex disk tp).remarks item.remark
  unfold persistBackup
  exact persistLoop_succeeds tp fp item.remark hrem k 0
    ((loadIndex disk tp).remarks.length + 2) disk item rfl (by omega)
    ⟨k, by omega, by omega, Or.inl hfree⟩

/-- C7 witness: the amended claim at a concrete state with one collision:
the automatic commit still succeeds (no conflict propagates). -/
theorem c7_witness :
    (⟨"me", "f.json", "h", "fp", 1, 50, "r", true, "/t", 40⟩ : BackupItem).remark ≠ "" ∧
    ∃ idx', persistBackup (some ⟨"", "", "", [], [("r", "other"), ("r-1", "x")]⟩) "/t"
        ⟨"me", "f.json", "h", "fp", 1, 50, "r", true, "/t", 40⟩ "fp" true =
      (.ok ((), idx'), some idx') :=
  ⟨by decide,
   c7_retry_terminates (some ⟨"", "", "", [], [("r", "other"), ("r-1", "x")]⟩) "/t" "fp"
     ⟨"me", "f.json", "h", "fp", 1, 50, "r", true, "/t", 40⟩ (by decide)⟩

/-- C8: restore is exact.  (1) A created scan persists exactly the bytes
it read from the target into the entry's backup file.  (2) Restoring an
entry whose backup file holds bytes `data` overwrites the target with
exactly `data` (atomically, modelled as a single state update) and then
refreshes `latestSignature` best-effort: a successful re-stat stores the
new fast signature, a failed re-stat leaves the index untouched, and the
restore succeeds either way. -/
theorem c8_restore_exact :
    (∀ (isAuto : Bool) (remark : Option String) (st : FileStat) (clock : Clock)
      (newId tp : String) (w : World) (fileBytes : List Nat) (it : BackupItem)
      (rs : String) (w' : World),
      w.target = some fileBytes →
      scan isAuto remark st clock newId tp w = (.ok ⟨true, some it, rs⟩, w') →
      lookupA w'.backups it.filename = some fileBytes) ∧
    (∀ (w : World) (tp id : String) (item : BackupItem) (data : List Nat),
      (loadIndex w.disk tp).items.find? (fun x => x.id = id) = some item →
      lookupA w.backups item.filename = some data →
      restoreBackup w tp id none = (.ok (), { w with target := some data }) ∧
      (∀ st, restoreBackup w tp id (some st) =
        (.ok (),
          { w with
            target := some data,
            disk := some { loadIndex w.disk tp with
                            latestFingerprint := computeFingerprint st } }))) := by
  constructor
  · intro isAuto remark st clock newId tp w fileBytes it rs w' htarget hscan
    unfold scan at hscan
    rw [htarget] at hscan
    dsimp only at hscan
    by_cases hfp : (loadIndex w.disk tp).latestFingerprint = computeFingerprint st
    · rw [if_pos hfp] at hscan
      have := congrArg (fun p => p.1) hscan
      simp [ScanResult.mk.injEq] at this
    · rw [if_neg hfp] at hscan
      dsimp only [computeContentHash] at hscan
      cases hcc : findByContentHash (loadIndex w.disk tp).items (sha256hex fileBytes) with
      | some _ =>
          rw [hcc] at hscan
          dsimp only at hscan
          have := congrArg (fun p => p.1) hscan
          simp [ScanResult.mk.injEq] at this
      | none =>
          rw [hcc] at hscan
          cases hpr : prepareRemark (loadIndex w.disk tp) isAuto remark clock with
          | error e =>
              rw [hpr] at hscan
              dsimp only at hscan
              have := congrArg (fun p => p.1) hscan
              simp at this
          | ok finalRemark =>
              rw [hpr] at hscan
              dsimp only at hscan
              cases hpb : persistBackup w.disk tp
                  { id := newId,
                    filename := ensureUniqueFilename w.backups
                      (buildBackupFilename clock.formatted (sha256hex fileBytes)),
                    contentHash := sha256hex fileBytes,
                    fileFingerprint := computeFingerprint st, size := st.size,
                    createdAt := clock.nanos, remark := finalRemark, isAuto := isAuto,
                    sourcePath := tp, lastModified := st.modTimeNanos }
                  (computeFingerprint st) isAuto with
              | mk r disk' =>
                  cases r with
                  | error e =>
                      rw [hpb] at hscan
                      dsimp only at hscan
                      have := congrArg (fun p => p.1) hscan
                      simp at this
                  | ok u =>
                      rw [hpb] at hscan
                      dsimp only at hscan
                      rw [Prod.mk.injEq] at hscan
                      obtain ⟨h1, h2⟩ := hscan
                      simp only [Except.ok.injEq, ScanResult.mk.injEq,
                        Option.some.injEq] at h1
                      obtain ⟨-, hit, -⟩ := h1
                      rw [← h2, ← hit]
                      exact lookupA_insertA_self _ _ _
  · intro w tp id item data hfind hlookup
    constructor
    · unfold restoreBackup
      dsimp only
      rw [hfind]
      dsimp only
      rw [hlookup]
    · intro st
      unfold restoreBackup
      dsimp only
      rw [hfind]
      dsimp only
      rw [hlookup]
      dsimp only
      rw [storeUpdateLatestFingerprint_eq]

/-- Concrete entry created by the C8 witness scan of `"abc"`. -/
def c8Item : BackupItem :=
  ⟨"id1", "20240101-120000_ba7816bf8f01.json",
   "ba7816bf8f01cfea414140de5dae2223b00361a396177a9cb410ff61f20015ad",
   "cf0934e06204cd56", 3, 2000, "manual-20240101-120000", false, "/t", 1000⟩

/-- World state after the C8 witness scan. -/
def c8WorldAfter : World :=
  ⟨some [97, 98, 99], [("20240101-120000_ba7816bf8f01.json", [97, 98, 99])],
   some ⟨"/t", "sha256", "cf0934e06204cd56", [c8Item],
     [("manual-20240101-120000", "id1")]⟩⟩

/-- C8 witness: scanning `"abc"` creates an entry, the backup file holds
exactly the captured bytes, and restoring that entry writes exactly those
bytes back to the target. -/
theorem c8_witness :
    scan false none ⟨3, 1000, 5, 7⟩ ⟨2000, "20240101-120000"⟩ "id1" "/t"
        ⟨some [97, 98, 99], [], none⟩ =
      (.ok ⟨true, some c8Item, ""⟩, c8WorldAfter) ∧
    lookupA c8WorldAfter.backups c8Item.filename = some [97, 98, 99] ∧
    restoreBackup c8WorldAfter "/t" "id1" none =
      (.ok (), { c8WorldAfter with target := some [97, 98, 99] }) :=
  ⟨rfl,
   c8_restore_exact.1 false none ⟨3, 1000, 5, 7⟩ ⟨2000, "20240101-120000"⟩ "id1" "/t"
     ⟨some [97, 98, 99], [], none⟩ [97, 98, 99] c8Item "" c8WorldAfter rfl rfl,
   (c8_restore_exact.2 c8WorldAfter "/t" "id1" c8Item [97, 98, 99] rfl rfl).1⟩

/-- C10 witness for the amended claim: a whitespace-only label on a
genuinely new content is rejected with the empty-remark error, and a
whitespace-only label on a missing target yields a non-created result. -/
theorem c10_witness :
    scan false (some "  ") ⟨3, 1000, 5, 7⟩ ⟨2000, "20240101-120000"⟩ "id1" "/t/auth.json"
        ⟨some [97, 98, 99], [], none⟩ =
      (.error .emptyRemark, ⟨some [97, 98, 99], [], none⟩) ∧
    (⟨false, none, reasonMissing⟩ : ScanResult).created = false :=
  ⟨c10_blank_label_rejected.1 false ⟨3, 1000, 5, 7⟩ ⟨2000, "20240101-120000"⟩ "id1"
      "/t/auth.json" ⟨some [97, 98, 99], [], none⟩ [97, 98, 99] "  " rfl (by decide)
      (by decide) (by decide),
   c10_blank_label_rejected.2 false ⟨3, 1000, 5, 7⟩ ⟨2000, "20240101-120000"⟩ "id1"
      "/t/auth.json" ⟨none, [], none⟩ "  " ⟨false, none, reasonMissing⟩ ⟨none, [], none⟩
      (by decide) rfl⟩

end CodexSwitch
